import Mathlib

/-
Verification of the locinet data pipeline (src/_data/site.js, the extended
version with corporate authors and display names).

The JavaScript data layer is shallowly embedded: dynamically typed values
are modelled by the inductive type JsVal, JavaScript objects by ordered
association lists of (key, value) pairs (JS string-keyed objects preserve
insertion order, cannot hold a duplicate key, and assignment to an
existing key keeps its position), and machine numbers by Int (all numeric
fields in the schema are YAML integers such as years).
-/

/-- A JavaScript/YAML value as it appears in the loaded documents.
`date` stands for a JS Date object, carrying the first ten characters of
its ISO string (the only use the pipeline makes of a Date). `undefV` is the
result of a missing property lookup. -/
inductive JsVal where
  | str (s : String)
  | num (n : Int)
  | bool (b : Bool)
  | nullV
  | undefV
  | date (isoDay : String)
  | arr (elems : List JsVal)
  | obj (fields : List (String × JsVal))

/-- JS truthiness: false, 0, "", null and undefined are falsy; every object
(including an empty array or object) is truthy. -/
def jsTruthy : JsVal → Bool
  | .str s => s ≠ ""
  | .num n => n ≠ 0
  | .bool b => b
  | .nullV => false
  | .undefV => false
  | .date _ => true
  | .arr _ => true
  | .obj _ => true

/-- Property lookup `v[k]` on an object; yields `undefV` when the key is
absent or the value is not an object (scalar property access on non-objects
does not occur in the schema). -/
def jsField : JsVal → String → JsVal
  | .obj fields, k => ((fields.find? (fun kv => kv.1 = k)).map (fun kv => kv.2)).getD .undefV
  | _, _ => .undefV

/-- Lookup directly on an object field list. -/
def jsGet (fields : List (String × JsVal)) (k : String) : JsVal :=
  ((fields.find? (fun kv => kv.1 = k)).map (fun kv => kv.2)).getD .undefV

/-- `a || b` on JS values. -/
def jsOrV (a b : JsVal) : JsVal :=
  if jsTruthy a then a else b

/-- `typeof v === "object"` (arrays and Date objects included; null is
excluded by the truthiness guards that always accompany this test in the
source). -/
def jsIsObjectType : JsVal → Bool
  | .obj _ => true
  | .arr _ => true
  | .date _ => true
  | .nullV => true
  | _ => false

/-- A null or undefined array element, which Array.prototype.join renders
as the empty string. -/
def jsElemNullish : JsVal → Bool
  | .nullV => true
  | .undefV => true
  | _ => false

/-- JS String(v) coercion for the values the pipeline stringifies
(string keys, scalar loci tags, titles). Array elements join with a
comma as in Array.prototype.toString. -/
def jsToString : JsVal → String
  | .str s => s
  | .num n => toString n
  | .bool b => if b then "true" else "false"
  | .nullV => "null"
  | .undefV => "undefined"
  | .date d => d
  | .obj _ => "[object Object]"
  | .arr xs => String.intercalate ","
      (xs.attach.map (fun ⟨v, _hv⟩ => if jsElemNullish v then "" else jsToString v))
termination_by v => sizeOf v
decreasing_by
  have := List.sizeOf_lt_of_mem _hv
  simp only [JsVal.arr.sizeOf_spec]
  omega

/-- Truthiness of an optional string (a JS variable holding a string or
null/undefined). -/
def optStrTruthy : Option String → Bool
  | some s => s ≠ ""
  | none => false

/-- Setting `obj[k] = v` on a JS object modelled as an association list:
an existing key keeps its position with its value replaced, a new key is
appended (JS objects preserve insertion order). -/
def jsObjSet {α : Type} : List (String × α) → String → α → List (String × α)
  | [], k, v => [(k, v)]
  | kv :: rest, k, v => if kv.1 = k then (k, v) :: rest else kv :: jsObjSet rest k v

/-- Reading `obj[k]` from an association-list object, as an Option. -/
def jsObjGet {α : Type} (o : List (String × α)) (k : String) : Option α :=
  (o.find? (fun kv => kv.1 = k)).map (fun kv => kv.2)

theorem jsObjGet_set {α : Type} (o : List (String × α)) (k k' : String) (v : α) :
    jsObjGet (jsObjSet o k v) k' = if k' = k then some v else jsObjGet o k' := by
  induction o with
  | nil =>
    by_cases h : k' = k
    · simp [jsObjSet, jsObjGet, List.find?, h]
    · have h' : ¬ k = k' := fun hh => h hh.symm
      simp [jsObjSet, jsObjGet, List.find?, h, h']
  | cons hd tl ih =>
    by_cases h1 : hd.1 = k
    · by_cases h2 : k' = k
      · subst h2
        simp [jsObjSet, jsObjGet, List.find?_cons, h1]
      · have h2' : ¬ k = k' := fun hh => h2 hh.symm
        have h3 : ¬ hd.1 = k' := fun hh => h2 ((hh ▸ h1 : (k' = k)))
        simp [jsObjSet, jsObjGet, List.find?_cons, h1, h2, h2', h3]
    · by_cases h2 : k' = k
      · subst h2
        have h1' : ¬ hd.1 = k' := h1
        have ih' := ih
        rw [if_pos rfl] at ih'
        simp only [jsObjGet] at ih'
        simp [jsObjSet, jsObjGet, List.find?_cons, h1', ih']
      · by_cases h3 : hd.1 = k'
        · simp [jsObjSet, jsObjGet, List.find?_cons, h1, h2, h3]
        · have ih' := ih
          rw [if_neg h2] at ih'
          simp only [jsObjGet] at ih'
          simp [jsObjSet, jsObjGet, List.find?_cons, h1, h2, h3, ih']

-- --- Taxonomy Flattener (buildLociFlat / collectDescendantSlugs) ---

/-- A node of the loci taxonomy tree. A node with no `children` key in the
YAML is modelled with an empty child list: the source guards every use
with `node.children || []` or a truthiness test, and recursing over an
empty list is a no-op, so the two shapes are indistinguishable. -/
inductive LociNode where
  | mk (name : String) (slug : String) (children : List LociNode)

def LociNode.name : LociNode → String
  | .mk n _ _ => n

def LociNode.slug : LociNode → String
  | .mk _ s _ => s

def LociNode.children : LociNode → List LociNode
  | .mk _ _ c => c

theorem lociNode_sizeOf_children_lt (n : LociNode) : sizeOf n.children < sizeOf n := by
  cases n with
  | mk name slug children => simp [LociNode.children]

/-- One entry of the flat loci lookup. -/
structure FlatTopic where
  name : String
  slug : String
  ancestors : List String
  descendants : List String
deriving DecidableEq

/-- collectDescendantSlugs(nodes, out): pushes every slug in the subtree
forest `nodes` onto `out` in depth-first preorder and returns it. -/
def collectDescendantSlugs : List LociNode → List String → List String
  | [], out => out
  | n :: rest, out =>
    collectDescendantSlugs rest (collectDescendantSlugs n.children (out ++ [n.slug]))
termination_by nodes _ => sizeOf nodes
decreasing_by
  all_goals have := lociNode_sizeOf_children_lt n
  all_goals simp only [List.cons.sizeOf_spec]
  all_goals omega

/-- buildLociFlat(nodes, parentSlugs, flat): depth-first traversal writing
one FlatTopic per node into the flat object, carrying the ancestor path. -/
def buildLociFlat : List LociNode → List String → List (String × FlatTopic) → List (String × FlatTopic)
  | [], _, flat => flat
  | n :: rest, parentSlugs, flat =>
    buildLociFlat rest parentSlugs
      (buildLociFlat n.children (parentSlugs ++ [n.slug])
        (jsObjSet flat n.slug
          { name := n.name, slug := n.slug, ancestors := parentSlugs,
            descendants := collectDescendantSlugs n.children [] }))
termination_by nodes _ _ => sizeOf nodes
decreasing_by
  all_goals have := lociNode_sizeOf_children_lt n
  all_goals simp only [List.cons.sizeOf_spec]
  all_goals omega

/-- Specification-side view: all slugs in the subtree forest `nodes`,
in depth-first preorder (each node followed by its descendants). -/
def subtreeSlugsList : List LociNode → List String
  | [] => []
  | n :: rest => (n.slug :: subtreeSlugsList n.children) ++ subtreeSlugsList rest
termination_by nodes => sizeOf nodes
decreasing_by
  all_goals have := lociNode_sizeOf_children_lt n
  all_goals simp only [List.cons.sizeOf_spec]
  all_goals omega

/-- All slugs of the subtree rooted at one node. -/
def subtreeSlugs (n : LociNode) : List String :=
  n.slug :: subtreeSlugsList n.children

theorem collectDescendantSlugs_eq (nodes : List LociNode) (out : List String) :
    collectDescendantSlugs nodes out = out ++ subtreeSlugsList nodes := by
  induction nodes, out using collectDescendantSlugs.induct with
  | case1 out => simp [collectDescendantSlugs, subtreeSlugsList]
  | case2 n rest out ih1 ih2 =>
    rw [collectDescendantSlugs, ih2, ih1]
    simp [subtreeSlugsList]

/-- `NodeIn nodes p n` holds when node `n` occurs in the forest `nodes`
with ancestor slug path `p` (root-to-parent order). -/
inductive NodeIn : List LociNode → List String → LociNode → Prop where
  | head (n : LociNode) (rest : List LociNode) : NodeIn (n :: rest) [] n
  | tail (m : LociNode) (rest : List LociNode) (p : List String) (n : LociNode) :
      NodeIn rest p n → NodeIn (m :: rest) p n
  | down (m : LociNode) (rest : List LociNode) (p : List String) (n : LociNode) :
      NodeIn m.children p n → NodeIn (m :: rest) (m.slug :: p) n

theorem NodeIn.slug_mem {nodes : List LociNode} {p : List String} {n : LociNode}
    (h : NodeIn nodes p n) : n.slug ∈ subtreeSlugsList nodes := by
  induction h with
  | head n rest => simp [subtreeSlugsList]
  | tail m rest p n _ ih => simp [subtreeSlugsList, ih]
  | down m rest p n _ ih => simp [subtreeSlugsList, ih]

theorem NodeIn.subtree_sublist {nodes : List LociNode} {p : List String} {n : LociNode}
    (h : NodeIn nodes p n) : List.Sublist (subtreeSlugs n) (subtreeSlugsList nodes) := by
  induction h with
  | head n rest =>
    rw [subtreeSlugsList]
    exact List.sublist_append_left _ _
  | tail m rest p n _ ih =>
    rw [subtreeSlugsList]
    exact ih.trans (List.sublist_append_right _ _)
  | down m rest p n _ ih =>
    rw [subtreeSlugsList]
    refine List.Sublist.trans ?_ (List.sublist_append_left _ _)
    exact ih.cons _

theorem mem_subtreeSlugsList_to_node {nodes : List LociNode} {s : String}
    (h : s ∈ subtreeSlugsList nodes) : ∃ p n, NodeIn nodes p n ∧ n.slug = s := by
  induction nodes using subtreeSlugsList.induct with
  | case1 => simp [subtreeSlugsList] at h
  | case2 n rest ih1 ih2 =>
    rw [subtreeSlugsList] at h
    simp only [List.mem_append, List.mem_cons] at h
    rcases h with (h | h) | h
    · exact ⟨[], n, NodeIn.head n rest, h.symm⟩
    · obtain ⟨p, m, hm, hs⟩ := ih1 h
      exact ⟨n.slug :: p, m, NodeIn.down n rest p m hm, hs⟩
    · obtain ⟨p, m, hm, hs⟩ := ih2 h
      exact ⟨p, m, NodeIn.tail n rest p m hm, hs⟩

theorem NodeIn.ancestor_subtree {nodes : List LociNode} {p : List String} {n : LociNode}
    (h : NodeIn nodes p n) :
    ∀ a ∈ p, ∃ p' m, NodeIn nodes p' m ∧ m.slug = a ∧ n.slug ∈ subtreeSlugsList m.children := by
  induction h with
  | head n rest => intro a ha; simp at ha
  | tail m rest p n _ ih =>
    intro a ha
    obtain ⟨p', m', hm', hs, hmem⟩ := ih a ha
    exact ⟨p', m', NodeIn.tail m rest p' m' hm', hs, hmem⟩
  | down m rest p n hn ih =>
    intro a ha
    rcases List.mem_cons.mp ha with ha | ha
    · exact ⟨[], m, NodeIn.head m rest, ha.symm, hn.slug_mem⟩
    · obtain ⟨p', m', hm', hs, hmem⟩ := ih a ha
      exact ⟨m.slug :: p', m', NodeIn.down m rest p' m' hm', hs, hmem⟩

theorem buildLociFlat_get_of_not_mem (nodes : List LociNode) (parents : List String)
    (flat : List (String × FlatTopic)) (s : String) :
    s ∉ subtreeSlugsList nodes →
    jsObjGet (buildLociFlat nodes parents flat) s = jsObjGet flat s := by
  induction nodes, parents, flat using buildLociFlat.induct with
  | case1 parents flat => intro h; rw [buildLociFlat]
  | case2 n rest parents flat ih1 ih2 =>
    intro h
    rw [subtreeSlugsList] at h
    simp only [List.mem_append, List.mem_cons, not_or] at h
    obtain ⟨⟨hs, hc⟩, hr⟩ := h
    rw [buildLociFlat]
    rw [ih2 hr, ih1 hc, jsObjGet_set]
    simp [hs]

theorem buildLociFlat_get_of_nodeIn (nodes : List LociNode) (parents : List String)
    (flat : List (String × FlatTopic)) :
    ∀ (p : List String) (n : LociNode),
    (subtreeSlugsList nodes).Nodup → NodeIn nodes p n →
    jsObjGet (buildLociFlat nodes parents flat) n.slug =
      some { name := n.name, slug := n.slug, ancestors := parents ++ p,
             descendants := subtreeSlugsList n.children } := by
  induction nodes, parents, flat using buildLociFlat.induct with
  | case1 parents flat => intro p n _ h; cases h
  | case2 m rest parents flat ih1 ih2 =>
    intro p n hnd h
    rw [subtreeSlugsList] at hnd
    rw [List.nodup_append] at hnd
    obtain ⟨hnd1, hnd2, hdisj⟩ := hnd
    rw [buildLociFlat]
    cases h with
    | head =>
      have h1 : m.slug ∉ subtreeSlugsList rest := by
        intro hmem
        exact hdisj (List.mem_cons_self _ _) hmem
      have h2 : m.slug ∉ subtreeSlugsList m.children := by
        intro hmem
        exact (List.nodup_cons.mp hnd1).1 hmem
      rw [buildLociFlat_get_of_not_mem _ _ _ _ h1,
          buildLociFlat_get_of_not_mem _ _ _ _ h2, jsObjGet_set]
      simp [collectDescendantSlugs_eq]
    | tail _ _ _ _ htail =>
      exact ih2 _ _ hnd2 htail
    | down _ _ p' _ hdown =>
      have h1 : n.slug ∉ subtreeSlugsList rest := by
        intro hmem
        exact hdisj (List.mem_cons_of_mem _ hdown.slug_mem) hmem
      rw [buildLociFlat_get_of_not_mem _ _ _ _ h1]
      have := ih1 _ _ (List.nodup_cons.mp hnd1).2 hdown
      rw [this]
      simp

/-- A two-node forest whose nodes share the slug "x". -/
def dupForest : List LociNode :=
  [.mk "First" "x" [], .mk "Second" "x" []]

/-- C5 counterexample: on a forest with a duplicated slug, buildLociFlat
does not fail with a DuplicateSlugError (no such error exists anywhere in
the pipeline); it returns a flat map in which the earlier node has been
silently overwritten by the later one. -/
theorem buildLociFlat_duplicate_slug_cex :
    buildLociFlat dupForest [] [] = [("x", ⟨"Second", "x", [], []⟩)] ∧
    jsObjGet (buildLociFlat dupForest [] []) "x" = some ⟨"Second", "x", [], []⟩ ∧
    (⟨"Second", "x", [], []⟩ : FlatTopic).name ≠ "First" := by
  refine ⟨?_, ?_, by decide⟩ <;>
    simp [dupForest, buildLociFlat, collectDescendantSlugs, jsObjSet, jsObjGet,
      List.find?, LociNode.slug, LociNode.name, LociNode.children]

/-- C5 (amended): when two nodes of the forest share a slug the Taxonomy
Flattener does not fail fast; the node visited later in depth-first order
silently overwrites the earlier node's flat entry. -/
theorem buildLociFlat_silent_overwrite (name1 name2 slug : String) :
    buildLociFlat [.mk name1 slug [], .mk name2 slug []] [] [] =
      [(slug, ⟨name2, slug, [], []⟩)] := by
  simp [buildLociFlat, collectDescendantSlugs, jsObjSet, jsObjGet,
    LociNode.slug, LociNode.name, LociNode.children]

/-- C6: for a well-formed forest (globally unique slugs; a forest of
inductive trees has no cycles), every entry of the flat lookup satisfies:
descendants are duplicate-free and never contain the entry's own slug;
descendants are exactly the slugs transitively reachable from the node's
children; ancestors are the root-to-parent path of the node; and every
ancestor's entry lists this entry's slug among its descendants. -/
theorem buildLociFlat_invariants (forest : List LociNode)
    (hnd : (subtreeSlugsList forest).Nodup) (s : String) (ft : FlatTopic)
    (hget : jsObjGet (buildLociFlat forest [] []) s = some ft) :
    ft.descendants.Nodup ∧ s ∉ ft.descendants ∧
    (∃ n p, NodeIn forest p n ∧ n.slug = s ∧ ft.ancestors = p ∧
      ft.descendants = subtreeSlugsList n.children) ∧
    (∀ a ∈ ft.ancestors, ∃ fta : FlatTopic,
      jsObjGet (buildLociFlat forest [] []) a = some fta ∧ s ∈ fta.descendants) := by
  have hmem : s ∈ subtreeSlugsList forest := by
    by_contra hcon
    rw [buildLociFlat_get_of_not_mem _ _ _ _ hcon] at hget
    simp [jsObjGet, List.find?] at hget
  obtain ⟨p, n, hn, hslug⟩ := mem_subtreeSlugsList_to_node hmem
  subst hslug
  have hval := buildLociFlat_get_of_nodeIn forest [] [] p n hnd hn
  have hft := Option.some.inj (hget.symm.trans hval)
  have hnds : (subtreeSlugs n).Nodup := List.Nodup.sublist hn.subtree_sublist hnd
  rw [subtreeSlugs, List.nodup_cons] at hnds
  refine ⟨?_, ?_, ?_, ?_⟩
  · rw [hft]
    exact hnds.2
  · rw [hft]
    exact hnds.1
  · exact ⟨n, p, hn, rfl, by rw [hft]; simp, by rw [hft]⟩
  · intro a ha
    rw [hft] at ha
    simp only [List.nil_append] at ha
    obtain ⟨p', m, hm, hma, hmem'⟩ := hn.ancestor_subtree a ha
    have hvm := buildLociFlat_get_of_nodeIn forest [] [] p' m hnd hm
    refine ⟨{ name := m.name, slug := m.slug, ancestors := [] ++ p', descendants := subtreeSlugsList m.children }, ?_, hmem'⟩
    rw [← hma]
    exact hvm

/-- A small concrete taxonomy used to exercise buildLociFlat_invariants. -/
def wForest : List LociNode :=
  [.mk "Doctrine of God" "god" [.mk "Trinity" "trinity" [], .mk "Attributes" "attributes" []],
   .mk "Christology" "christology" []]

theorem buildLociFlat_invariants_witness :
    (⟨"Trinity", "trinity", ["god"], []⟩ : FlatTopic).descendants.Nodup ∧
    "trinity" ∉ (⟨"Trinity", "trinity", ["god"], []⟩ : FlatTopic).descendants ∧
    (∃ n p, NodeIn wForest p n ∧ n.slug = "trinity" ∧
      (⟨"Trinity", "trinity", ["god"], []⟩ : FlatTopic).ancestors = p ∧
      (⟨"Trinity", "trinity", ["god"], []⟩ : FlatTopic).descendants = subtreeSlugsList n.children) ∧
    (∀ a ∈ (⟨"Trinity", "trinity", ["god"], []⟩ : FlatTopic).ancestors, ∃ fta : FlatTopic,
      jsObjGet (buildLociFlat wForest [] []) a = some fta ∧ "trinity" ∈ fta.descendants) :=
  buildLociFlat_invariants wForest
    (by simp [wForest, subtreeSlugsList, LociNode.slug, LociNode.children])
    "trinity" ⟨"Trinity", "trinity", ["god"], []⟩
    (by simp [wForest, buildLociFlat, collectDescendantSlugs, jsObjSet, jsObjGet,
      List.find?, LociNode.slug, LociNode.name, LociNode.children])

-- --- Section parsing (parseSection / flattenSections / collectAllSectionLoci) ---

/-- The reserved keys of a raw section item. -/
def RESERVED_KEYS : List String := ["loci", "sections"]

/-- A parsed section of a work's table of contents. -/
inductive WorkSection where
  | mk (id : String) (title : String) (loci : List String) (children : List WorkSection)

def WorkSection.id : WorkSection → String
  | .mk i _ _ _ => i

def WorkSection.title : WorkSection → String
  | .mk _ t _ _ => t

def WorkSection.loci : WorkSection → List String
  | .mk _ _ l _ => l

def WorkSection.children : WorkSection → List WorkSection
  | .mk _ _ _ c => c

theorem workSection_sizeOf_children_lt (s : WorkSection) : sizeOf s.children < sizeOf s := by
  cases s with
  | mk i t l c => simp [WorkSection.children]

/-- The first key of a raw section item not in the reserved set, with its
value (JS object keys are unique, so the value at that key is the value
stored with it). -/
def firstNonReserved : List (String × JsVal) → Option (String × JsVal)
  | [] => none
  | kv :: rest => if RESERVED_KEYS.contains kv.1 then firstNonReserved rest else some kv

/-- Scalar-or-list normalization of a raw loci value: a falsy value gives
the empty list, an array maps each element through String(), any other
truthy value becomes a one-element list. Duplicates are retained. -/
def lociOfRaw (lociRaw : JsVal) : List String :=
  if jsTruthy lociRaw then
    match lociRaw with
    | .arr xs => xs.map jsToString
    | v => [jsToString v]
  else []

theorem jsGet_arr_sizeOf (fields : List (String × JsVal)) (k : String) (xs : List JsVal)
    (h : jsGet fields k = .arr xs) : sizeOf (JsVal.arr xs) < sizeOf fields := by
  unfold jsGet at h
  cases hfind : fields.find? (fun kv => kv.1 = k) with
  | none => rw [hfind] at h; simp at h
  | some kv =>
    rw [hfind] at h
    simp only [Option.map_some', Option.getD_some] at h
    have hmem := List.mem_of_find?_eq_some hfind
    have hlt := List.sizeOf_lt_of_mem hmem
    cases kv with
    | mk k' v' =>
      simp only [Prod.mk.sizeOf_spec] at hlt
      have h2 : v' = .arr xs := h
      subst h2
      omega

/-- parseSection(item): the first non-reserved key provides (id, title)
via String(); the reserved loci key is normalized scalar-or-list; the
reserved sections key, when it is an array, is parsed recursively with
malformed children dropped (a truthy non-array would throw in JS and does
not occur); an item with no non-reserved key is dropped (null). A
non-object item exposes no usable keys. -/
def parseSection : JsVal → Option WorkSection
  | .obj fields =>
    match firstNonReserved fields with
    | none => none
    | some kv =>
      let loci := lociOfRaw (jsGet fields "loci")
      let children :=
        match h : jsGet fields "sections" with
        | .arr xs => (xs.attach.map (fun ⟨v, _hv⟩ => parseSection v)).reduceOption
        | _ => []
      some (.mk kv.1 (jsToString kv.2) loci children)
  | _ => none
termination_by v => sizeOf v
decreasing_by
  have h1 := List.sizeOf_lt_of_mem _hv
  have h2 := jsGet_arr_sizeOf fields "sections" xs h
  simp only [JsVal.obj.sizeOf_spec, JsVal.arr.sizeOf_spec] at *
  omega

/-- One row of the flattened section list handed to templates: the spread
copy of a section with its children replaced by depth and childCount. -/
structure FlatSection where
  id : String
  title : String
  loci : List String
  depth : Nat
  childCount : Nat
deriving DecidableEq

/-- flattenSections(sections, depth, out). -/
def flattenSections : List WorkSection → Nat → List FlatSection → List FlatSection
  | [], _, out => out
  | s :: rest, depth, out =>
    flattenSections rest depth
      (if s.children.length > 0 then
        flattenSections s.children (depth + 1)
          (out ++ [{ id := s.id, title := s.title, loci := s.loci, depth := depth,
                     childCount := s.children.length }])
      else
        out ++ [{ id := s.id, title := s.title, loci := s.loci, depth := depth,
                  childCount := s.children.length }])
termination_by sections _ _ => sizeOf sections
decreasing_by
  all_goals have := workSection_sizeOf_children_lt s
  all_goals simp only [List.cons.sizeOf_spec]
  all_goals omega

/-- collectAllSectionLoci(sections): all loci of a section forest in
document order (children always recursed; an array is always truthy). -/
def collectAllSectionLoci : List WorkSection → List String
  | [] => []
  | s :: rest => s.loci ++ collectAllSectionLoci s.children ++ collectAllSectionLoci rest
termination_by sections => sizeOf sections
decreasing_by
  all_goals have := workSection_sizeOf_children_lt s
  all_goals simp only [List.cons.sizeOf_spec]
  all_goals omega

theorem attach_map_parseSection (xs : List JsVal) :
    xs.attach.map (fun x => parseSection x.1) = xs.map parseSection := by
  simp [List.attach_map_val]

/-- Characterization of parseSection on an object with a non-reserved key. -/
theorem parseSection_obj (fields : List (String × JsVal)) (k : String) (v : JsVal)
    (h : firstNonReserved fields = some (k, v)) :
    parseSection (.obj fields) = some (.mk k (jsToString v) (lociOfRaw (jsGet fields "loci"))
      (match jsGet fields "sections" with
       | .arr xs => (xs.map parseSection).reduceOption
       | _ => [])) := by
  rw [parseSection]
  rw [h]
  cases hsec : jsGet fields "sections" with
  | arr xs => simp [hsec, attach_map_parseSection]
  | str s => simp [hsec]
  | num n => simp [hsec]
  | bool b => simp [hsec]
  | nullV => simp [hsec]
  | undefV => simp [hsec]
  | date d => simp [hsec]
  | obj o => simp [hsec]

/-- The section list of the spec's round-trip scenario. -/
def sectionExample : List JsVal :=
  [.obj [("ch1", .str "Chapter One"), ("loci", .arr [.str "a", .str "b"])],
   .obj [("ch2", .str "Chapter Two"), ("sections", .arr [.obj [("ch2a", .str "Sub")]])]]

/-- C7 counterexample: the parser does not deduplicate the loci list — an
item whose loci key holds ["a", "a"] parses with loci ["a", "a"], which is
not a duplicate-free set. -/
theorem parseSection_no_dedup_cex :
    (parseSection (.obj [("ch1", .str "T"), ("loci", .arr [.str "a", .str "a"])])).map
        WorkSection.loci = some ["a", "a"] ∧
    ¬ (["a", "a"] : List String).Nodup := by
  refine ⟨?_, by decide⟩
  rw [parseSection_obj _ "ch1" (.str "T") (by simp [firstNonReserved, RESERVED_KEYS])]
  simp [jsGet, List.find?, lociOfRaw, jsTruthy, jsToString, WorkSection.loci]

/-- C7 (amended): the parser takes the first non-reserved key as (id, title),
normalizes the reserved loci key from a scalar or list into a list of
strings with duplicates retained, recursively parses the reserved sections
key into ordered children, and drops (non-fatally) any section item with no
non-reserved key; the spec's two-section example parses to two top-level
sections, the second with one child, and ch1's loci equal to ["a", "b"]. -/
theorem parseSection_props :
    (∀ fields, firstNonReserved fields = none → parseSection (.obj fields) = none) ∧
    (∀ fields k v, firstNonReserved fields = some (k, v) →
      ∃ s, parseSection (.obj fields) = some s ∧
        s.id = k ∧ s.title = jsToString v ∧
        s.loci = lociOfRaw (jsGet fields "loci") ∧
        (∀ xs, jsGet fields "sections" = .arr xs →
          s.children = (xs.map parseSection).reduceOption)) ∧
    ((sectionExample.map parseSection).reduceOption =
      [.mk "ch1" "Chapter One" ["a", "b"] [],
       .mk "ch2" "Chapter Two" [] [.mk "ch2a" "Sub" [] []]]) := by
  refine ⟨?_, ?_, ?_⟩
  · intro fields h
    rw [parseSection, h]
  · intro fields k v h
    rw [parseSection_obj fields k v h]
    refine ⟨_, rfl, rfl, rfl, rfl, ?_⟩
    intro xs hsec
    simp [WorkSection.children, hsec]
  · rw [sectionExample]
    rw [List.map_cons, List.map_cons, List.map_nil]
    rw [parseSection_obj _ "ch1" (.str "Chapter One") (by simp [firstNonReserved, RESERVED_KEYS]),
        parseSection_obj _ "ch2" (.str "Chapter Two") (by simp [firstNonReserved, RESERVED_KEYS])]
    simp [jsGet, List.find?, lociOfRaw, jsTruthy, jsToString]
    rw [parseSection_obj _ "ch2a" (.str "Sub") (by simp [firstNonReserved, RESERVED_KEYS])]
    simp [jsGet, List.find?, lociOfRaw, jsTruthy, jsToString, List.reduceOption]

theorem parseSection_props_witness :
    ∃ s, parseSection (.obj [("intro", .str "Introduction"), ("loci", .str "providence")]) = some s ∧
      s.id = "intro" ∧ s.title = jsToString (.str "Introduction") ∧
      s.loci = lociOfRaw (jsGet [("intro", .str "Introduction"), ("loci", .str "providence")] "loci") ∧
      (∀ xs, jsGet [("intro", .str "Introduction"), ("loci", .str "providence")] "sections" = .arr xs →
        s.children = (xs.map parseSection).reduceOption) :=
  parseSection_props.2.1 [("intro", .str "Introduction"), ("loci", .str "providence")]
    "intro" (.str "Introduction") (by simp [firstNonReserved, RESERVED_KEYS])

-- --- Work parsing (parseWork and helpers) ---

/-- Top-level keys of a work record that are not language blocks. -/
def WORK_META_KEYS : List String := ["author", "category", "loci", "corporate_author", "date_added"]

/-- slugify(name): lower-case, strip characters outside [a-z0-9\s-],
whitespace runs to single dashes, collapse dash runs, trim a leading and a
trailing dash. Char.isWhitespace stands for the regex whitespace class. -/
def slugify (name : String) : String :=
  let lowered := name.toList.map Char.toLower
  let kept := lowered.filter (fun c =>
    (decide (('a' ≤ c ∧ c ≤ 'z') ∨ ('0' ≤ c ∧ c ≤ '9'))) || c.isWhitespace || c = '-')
  let dashed := kept.map (fun c => if c.isWhitespace then '-' else c)
  let collapsed := dashed.foldr
    (fun c acc => if c = '-' ∧ acc.head? = some '-' then acc else c :: acc) []
  let noLead := match collapsed with
    | '-' :: t => t
    | t => t
  let noTrail := match noLead.reverse with
    | '-' :: t => t.reverse
    | _ => noLead
  String.mk noTrail

/-- Insertion-order deduplication, as produced by spreading a JS Set. -/
def jsSetDedup (l : List String) : List String :=
  l.foldl (fun acc s => if s ∈ acc then acc else acc ++ [s]) []

/-- buildSectionUrlMap(sectionUrls): a falsy value gives the empty map;
every key of every array item is copied into one map (items are objects in
the schema; a non-object item exposes no keys). -/
def buildSectionUrlMap : JsVal → List (String × JsVal)
  | .arr items => items.foldl (fun m item =>
      match item with
      | .obj fs => fs.foldl (fun m kv => jsObjSet m kv.1 kv.2) m
      | _ => m) []
  | _ => []

/-- A site hosting a translation. -/
structure SiteEntry where
  siteName : String
  url : JsVal
  volumes : JsVal
  pdf : Bool
  sectionUrls : List (String × JsVal)
  sectionTexts : List (String × JsVal)

/-- One translation of a work. -/
structure Translation where
  translator : String
  translatorInfo : JsVal
  year : JsVal
  AI : Bool
  sites : List SiteEntry

/-- A site of an original-language edition. -/
structure EdSite where
  siteName : JsVal
  url : JsVal

/-- An original-language edition. -/
structure OrigEdition where
  year : JsVal
  place : JsVal
  sites : List EdSite

/-- A corporate author as parsed from the work record; `slug` is deferred
(none) when a qid is given, to be resolved by the author aggregation. -/
structure CorpAuthor where
  label : String
  slug : Option String
  qid : Option String

/-- A cross-reference to a co-member of a corporate-authored work. -/
structure MemberRef where
  qid : String
  name : String
  slug : String
deriving DecidableEq

/-- `v || default` rendered as a string choice. -/
def jsStrOr (v : JsVal) (d : String) : String :=
  if jsTruthy v then jsToString v else d

/-- parseSite: the polymorphic url field is branched on shape — an object
with a truthy volumes key yields a volume map and null url, anything else
is the plain (possibly null) url. -/
def parseSite (s : JsVal) : SiteEntry :=
  let urlData := jsField s "url"
  let isVolumes := jsTruthy urlData && jsIsObjectType urlData && jsTruthy (jsField urlData "volumes")
  { siteName := jsStrOr (jsField s "site") "Unknown"
    url := if isVolumes then .nullV else jsOrV urlData .nullV
    volumes := if isVolumes then jsField urlData "volumes" else .nullV
    pdf := jsTruthy (jsField s "pdf")
    sectionUrls := buildSectionUrlMap (jsField s "section_urls")
    sectionTexts := buildSectionUrlMap (jsField s "text") }

/-- parseTranslation: one entry of en.translations (a falsy sites field
gives no sites; sites lists are arrays in the schema). -/
def parseTranslation (translatorsMap : List (String × JsVal)) (t : JsVal) : Translation :=
  let translatorName := jsStrOr (jsField t "translator") "Unknown"
  { translator := translatorName
    translatorInfo := jsOrV (jsGet translatorsMap translatorName) .nullV
    year := jsOrV (jsField t "year") .nullV
    AI := jsTruthy (jsField t "AI")
    sites := match jsField t "sites" with
      | .arr ss => ss.map parseSite
      | _ => [] }

/-- The language blocks of a work record carrying a truthy orig_lang flag,
in key order: every non-meta key whose value is an object (a JS spread
`\x7blang: code, ...data\x7d` keeps the key and the fields). -/
def origLangBlocks (workFields : List (String × JsVal)) : List (String × List (String × JsVal)) :=
  workFields.filterMap (fun kv =>
    if kv.1 ∈ WORK_META_KEYS then none
    else match kv.2 with
      | .obj fs => if jsTruthy (jsGet fs "orig_lang") then some (kv.1, fs) else none
      | _ => none)

/-- origLangs[0] || null: the designated original-language block. -/
def findOrigLang (workFields : List (String × JsVal)) :
    Option (String × List (String × JsVal)) :=
  (origLangBlocks workFields).head?

/-- One step of the running minimum: a truthy numeric year replaces the
current minimum when the minimum is absent or larger (year fields are
YAML integers in this schema). -/
def minYearStep (y : Option Int) (ed : JsVal) : Option Int :=
  match jsField ed "year" with
  | .num n => if n ≠ 0 ∧ (y = none ∨ n < y.getD 0) then some n else y
  | _ => y

/-- The running minimum over one editions array. -/
def minYearFold (cur : Option Int) (eds : List JsVal) : Option Int :=
  eds.foldl minYearStep cur

/-- One step of the fallback scan: a non-meta object block carrying an
editions array folds its years into the running minimum. -/
def workYearStep (y : Option Int) (kv : String × JsVal) : Option Int :=
  if kv.1 ∈ WORK_META_KEYS then y
  else match kv.2 with
    | .obj bfs =>
      match jsGet bfs "editions" with
      | .arr eds => minYearFold y eds
      | _ => y
    | _ => y

/-- The year of a work: minimum edition year of the designated
original-language block, else the running minimum across every non-meta
object block carrying an editions array. -/
def workYear (workFields : List (String × JsVal)) : Option Int :=
  let fromOrig :=
    match findOrigLang workFields with
    | some (_, fs) =>
      match jsGet fs "editions" with
      | .arr eds => minYearFold none eds
      | _ => none
    | none => none
  match fromOrig with
  | some y => some y
  | none => workFields.foldl workYearStep none

/-- One original edition entry: year and place are copied, sites collected
when present. -/
def parseOrigEdition (ed : JsVal) : OrigEdition :=
  { year := jsField ed "year"
    place := jsOrV (jsField ed "place") .nullV
    sites := match jsField ed "sites" with
      | .arr ss => ss.map (fun s0 => { siteName := jsField s0 "site", url := jsField s0 "url" })
      | _ => [] }

/-- The original edition list together with the first truthy oclc value
(String() of a truthy scalar is nonempty, so the first one sticks). -/
def workOrigEditions (origLang : Option (String × List (String × JsVal))) :
    List OrigEdition × Option String :=
  match origLang with
  | some (_, fs) =>
    match jsGet fs "editions" with
    | .arr eds =>
      eds.foldl (fun (acc : List OrigEdition × Option String) ed =>
        (acc.1 ++ [parseOrigEdition ed],
         match acc.2 with
         | some o => some o
         | none =>
           if jsTruthy (jsField ed "oclc") then some (jsToString (jsField ed "oclc")) else none))
        ([], none)
    | _ => ([], none)
  | none => ([], none)

/-- The url of the first edition site with a truthy url, scanning editions
in order and sites in order (the double break in the source). -/
def firstOrigUrl (eds : List OrigEdition) : JsVal :=
  (((eds.flatMap (fun e => e.sites)).find? (fun s0 => jsTruthy s0.url)).map
    (fun s0 => s0.url)).getD .nullV

/-- parseCorpAuthor: a truthy string gives label with an immediate slug; a
truthy object gives label, qid (when truthy) and a deferred slug exactly
when a qid is present. -/
def parseCorpAuthor (v : JsVal) : Option CorpAuthor :=
  if jsTruthy v then
    match v with
    | .str s => some { label := s, slug := some (slugify s), qid := none }
    | .obj fs =>
      some { label := jsToString (jsGet fs "label")
             slug := if jsTruthy (jsGet fs "qid") then none
                     else some (slugify (jsToString (jsGet fs "label")))
             qid := if jsTruthy (jsGet fs "qid") then some (jsToString (jsGet fs "qid")) else none }
    | _ => none
  else none

/-- The merged sectionTexts of all translation sites: first value for a
key wins (the source only assigns when the current entry is falsy). -/
def mergeSectionTexts (translations : List Translation) : List (String × JsVal) :=
  translations.foldl (fun acc t =>
    t.sites.foldl (fun acc s =>
      s.sectionTexts.foldl (fun acc kv =>
        if jsTruthy (jsGet acc kv.1) then acc else jsObjSet acc kv.1 kv.2) acc) acc) []

/-- A parsed Work, mirroring the object returned by parseWork. coMembers
is attached later (only on per-author copies made by buildAuthorPages). -/
structure Work where
  id : String
  author : String
  authors : List String
  corporateAuthor : Option CorpAuthor
  category : JsVal
  dateAdded : Option String
  workLoci : List String
  allLoci : List String
  year : Option Int
  origTitle : JsVal
  origLang : Option String
  origUrl : JsVal
  oclc : Option String
  origEditions : List OrigEdition
  title : JsVal
  sections : List WorkSection
  flatSections : List FlatSection
  translations : List Translation
  sectionTexts : List (String × JsVal)
  yamlFilename : String
  coMembers : Option (List MemberRef)

/-- The field list a value exposes to key access: the fields of an object,
nothing otherwise (also models `v || \x7b\x7d`: a falsy value has no fields). -/
def workRecordFields : JsVal → List (String × JsVal)
  | .obj fs => fs
  | _ => []

/-- parseWork(fileId, data, translatorsMap). A falsy record value yields
null. Field access on a truthy non-object exposes no keys (such records do
not occur); en defaults to the empty object when falsy. Author ids and
qids are strings in the schema (they are used as object keys). -/
def parseWork (fileId : String) (data : List (String × JsVal))
    (translatorsMap : List (String × JsVal)) : Option Work :=
  let work := jsGet data fileId
  if jsTruthy work then
    let workFields := workRecordFields work
    let enFields := workRecordFields (jsGet workFields "en")
    let origLang := findOrigLang workFields
    let rawSections := match jsGet enFields "sections" with
      | .arr xs => xs
      | _ => []
    let sections := (rawSections.map parseSection).reduceOption
    let workLoci := lociOfRaw (jsGet workFields "loci")
    let translations := match jsGet enFields "translations" with
      | .arr ts => ts.map (parseTranslation translatorsMap)
      | _ => []
    let edsOclc := workOrigEditions origLang
    let authorsList := match jsGet workFields "author" with
      | .arr xs => xs.map jsToString
      | v => [jsToString v]
    some
      { id := fileId
        author := authorsList.headD "undefined"
        authors := authorsList
        corporateAuthor := parseCorpAuthor (jsGet workFields "corporate_author")
        category := jsOrV (jsGet workFields "category") .nullV
        dateAdded :=
          if jsTruthy (jsGet workFields "date_added") then
            some (match jsGet workFields "date_added" with
              | .date d => d
              | v => jsToString v)
          else none
        workLoci := workLoci
        allLoci := jsSetDedup (workLoci ++ collectAllSectionLoci sections)
        year := workYear workFields
        origTitle := match origLang with
          | some (_, fs) => jsGet fs "title"
          | none => .nullV
        origLang := origLang.map (fun kv => kv.1)
        origUrl := firstOrigUrl edsOclc.1
        oclc := edsOclc.2
        origEditions := edsOclc.1
        title := jsOrV (jsOrV (jsGet enFields "title")
          (match origLang with
           | some (_, fs) => jsGet fs "title"
           | none => .undefV)) (.str fileId)
        sections := sections
        flatSections := flattenSections sections 0 []
        translations := translations
        sectionTexts := mergeSectionTexts translations
        yamlFilename := fileId ++ ".yaml"
        coMembers := none }
  else none

-- --- C2: the year invariant ---

/-- Minimum of two optional values (absent = no constraint). -/
def optMin : Option Int → Option Int → Option Int
  | none, b => b
  | some a, none => some a
  | some a, some b => some (min a b)

/-- The minimum of a list of years, none when the list is empty. -/
def listMinInt (l : List Int) : Option Int :=
  l.foldl (fun acc n => optMin acc (some n)) none

/-- The editions array of a language block (empty when absent or not an
array). -/
def blockEditions (fs : List (String × JsVal)) : List JsVal :=
  match jsGet fs "editions" with
  | .arr eds => eds
  | _ => []

/-- The truthy numeric years of an edition list, in order; editions
without a year are ignored. -/
def edYears (eds : List JsVal) : List Int :=
  eds.filterMap (fun ed =>
    match jsField ed "year" with
    | .num n => if n ≠ 0 then some n else none
    | _ => none)

/-- The non-meta keys of a work record whose value is an object: the
language blocks, in key order. -/
def nonMetaObjBlocks (workFields : List (String × JsVal)) :
    List (String × List (String × JsVal)) :=
  workFields.filterMap (fun kv =>
    if kv.1 ∈ WORK_META_KEYS then none
    else match kv.2 with
      | .obj fs => some (kv.1, fs)
      | _ => none)

/-- Modelled from the spec: the year is the minimum edition year found in
the designated original-language block; if that block yields no year, the
minimum edition year found across the other language blocks; a work with
no dated edition anywhere has a null year. -/
def specYear (workFields : List (String × JsVal)) : Option Int :=
  match findOrigLang workFields with
  | some (lang, fs) =>
    match listMinInt (edYears (blockEditions fs)) with
    | some y => some y
    | none =>
      listMinInt (((nonMetaObjBlocks workFields).filter (fun kv => kv.1 ≠ lang)).flatMap
        (fun kv => edYears (blockEditions kv.2)))
  | none =>
    listMinInt ((nonMetaObjBlocks workFields).flatMap
      (fun kv => edYears (blockEditions kv.2)))

theorem optMin_assoc (a b c : Option Int) :
    optMin (optMin a b) c = optMin a (optMin b c) := by
  cases a <;> cases b <;> cases c <;> simp [optMin, min_assoc]

theorem foldl_optMin (ys : List Int) (acc : Option Int) :
    ys.foldl (fun a n => optMin a (some n)) acc = optMin acc (listMinInt ys) := by
  induction ys generalizing acc with
  | nil => cases acc <;> simp [listMinInt, optMin]
  | cons y ys ih =>
    rw [List.foldl_cons, ih]
    have hr : listMinInt (y :: ys) = optMin (some y) (listMinInt ys) := by
      rw [listMinInt, List.foldl_cons]
      have h0 : optMin none (some y) = some y := by simp [optMin]
      rw [h0, ih]
    rw [hr, optMin_assoc]

theorem listMinInt_cons (y : Int) (ys : List Int) :
    listMinInt (y :: ys) = optMin (some y) (listMinInt ys) := by
  rw [listMinInt, List.foldl_cons, foldl_optMin]
  simp [optMin]

theorem listMinInt_append (l1 l2 : List Int) :
    listMinInt (l1 ++ l2) = optMin (listMinInt l1) (listMinInt l2) := by
  rw [listMinInt, List.foldl_append, foldl_optMin]
  rfl

theorem listMinInt_eq_none (l : List Int) : listMinInt l = none ↔ l = [] := by
  cases l with
  | nil => simp [listMinInt]
  | cons y ys =>
    rw [listMinInt_cons]
    cases hys : listMinInt ys <;> simp [optMin]

/-- Sanity: the fold really computes a minimum — the result is a member
that is below every member. -/
theorem listMinInt_is_min (l : List Int) (n : Int) (h : listMinInt l = some n) :
    n ∈ l ∧ ∀ m ∈ l, n ≤ m := by
  induction l generalizing n with
  | nil => simp [listMinInt] at h
  | cons y ys ih =>
    rw [listMinInt_cons] at h
    cases hys : listMinInt ys with
    | none =>
      rw [hys] at h
      rw [listMinInt_eq_none] at hys
      subst hys
      simp [optMin] at h
      subst h
      simp
    | some m =>
      rw [hys] at h
      simp [optMin] at h
      obtain ⟨hmem, hle⟩ := ih m hys
      subst h
      constructor
      · rcases le_total y m with hc | hc
        · simp [min_eq_left hc]
        · right
          rw [min_eq_right hc]
          exact hmem
      · intro k hk
        rcases List.mem_cons.mp hk with hk | hk
        · subst hk
          exact min_le_left _ _
        · exact le_trans (min_le_right _ _) (hle k hk)

/-- An edition list contributes its head's years before the rest. -/
theorem edYears_cons (ed : JsVal) (eds : List JsVal) :
    edYears (ed :: eds) = edYears [ed] ++ edYears eds := by
  simp only [edYears, List.filterMap_cons, List.filterMap_nil]
  cases jsField ed "year" with
  | num n => by_cases hn : n = 0 <;> simp [hn]
  | str v => simp
  | bool b => simp
  | nullV => simp
  | undefV => simp
  | date d => simp
  | arr xs => simp
  | obj fs => simp

/-- One minimum step equals folding in the (at most one) year the edition
contributes. -/
theorem minYearStep_eq (cur : Option Int) (ed : JsVal) :
    minYearStep cur ed = optMin cur (listMinInt (edYears [ed])) := by
  unfold minYearStep
  cases hy : jsField ed "year" with
  | num n =>
    by_cases hn : n = 0
    · subst hn
      cases cur <;> simp [edYears, hy, optMin, listMinInt]
    · have h1 : edYears [ed] = [n] := by simp [edYears, hy, hn]
      rw [h1]
      have h2 : listMinInt [n] = some n := by simp [listMinInt, optMin]
      rw [h2]
      cases cur with
      | none => simp [hn, optMin]
      | some c =>
        by_cases hlt : n < c
        · simp [hn, hlt, optMin]
          omega
        · simp [hn, hlt, optMin]
          omega
  | str v => cases cur <;> simp [edYears, hy, optMin, listMinInt]
  | bool b => cases cur <;> simp [edYears, hy, optMin, listMinInt]
  | nullV => cases cur <;> simp [edYears, hy, optMin, listMinInt]
  | undefV => cases cur <;> simp [edYears, hy, optMin, listMinInt]
  | date d => cases cur <;> simp [edYears, hy, optMin, listMinInt]
  | arr xs => cases cur <;> simp [edYears, hy, optMin, listMinInt]
  | obj fs => cases cur <;> simp [edYears, hy, optMin, listMinInt]

/-- The source's running-minimum fold equals the spec-side minimum of the
collected years, seeded by the incoming minimum. -/
theorem minYearFold_eq (eds : List JsVal) (cur : Option Int) :
    minYearFold cur eds = optMin cur (listMinInt (edYears eds)) := by
  induction eds generalizing cur with
  | nil => cases cur <;> simp [minYearFold, edYears, listMinInt, optMin]
  | cons ed eds ih =>
    have h1 : minYearFold cur (ed :: eds) = minYearFold (minYearStep cur ed) eds := by
      simp [minYearFold, List.foldl_cons]
    rw [h1, ih, minYearStep_eq]
    conv_rhs => rw [edYears_cons, listMinInt_append]
    rw [optMin_assoc]

/-- In an association list with duplicate-free keys, a key determines its
value. -/
theorem keysNodup_val_eq {α : Type} {l : List (String × α)} (hnd : (l.map Prod.fst).Nodup)
    {k : String} {a b : α} (ha : (k, a) ∈ l) (hb : (k, b) ∈ l) : a = b := by
  induction l with
  | nil => simp at ha
  | cons hd tl ih =>
    rw [List.map_cons, List.nodup_cons] at hnd
    rcases List.mem_cons.mp ha with ha' | ha' <;> rcases List.mem_cons.mp hb with hb' | hb'
    · exact (Prod.ext_iff.mp (ha'.trans hb'.symm)).2
    · exfalso
      apply hnd.1
      have hmem : k ∈ tl.map Prod.fst := List.mem_map_of_mem Prod.fst hb'
      rw [← ha']
      exact hmem
    · exfalso
      apply hnd.1
      have hmem : k ∈ tl.map Prod.fst := List.mem_map_of_mem Prod.fst ha'
      rw [← hb']
      exact hmem
    · exact ih hnd.2 ha' hb'

theorem flatMap_filter_of_empty {α β : Type} (l : List α) (p : α → Bool) (f : α → List β)
    (h : ∀ x ∈ l, p x = false → f x = []) :
    l.flatMap f = (l.filter p).flatMap f := by
  induction l with
  | nil => simp
  | cons x xs ih =>
    have ihx := ih (fun y hy => h y (List.mem_cons_of_mem _ hy))
    cases hp : p x with
    | true => simp [List.filter_cons, hp, ihx]
    | false => simp [List.filter_cons, hp, ihx, h x (List.mem_cons_self _ _) hp]

theorem mem_nonMetaObjBlocks {fs : List (String × JsVal)}
    {kv : String × List (String × JsVal)} (h : kv ∈ nonMetaObjBlocks fs) :
    (kv.1, JsVal.obj kv.2) ∈ fs := by
  rw [nonMetaObjBlocks, List.mem_filterMap] at h
  obtain ⟨kv0, hmem, heq⟩ := h
  by_cases hmeta : kv0.1 ∈ WORK_META_KEYS
  · simp [hmeta] at heq
  · simp only [hmeta, if_false] at heq
    cases hv : kv0.2 with
    | obj bfs =>
      rw [hv] at heq
      simp only [Option.some.injEq] at heq
      have : kv0 = (kv.1, JsVal.obj kv.2) := by
        cases kv0 with
        | mk k0 v0 =>
          simp only at hv
          subst hv
          cases heq
          rfl
      rw [← this]
      exact hmem
    | str v => rw [hv] at heq; simp at heq
    | num n => rw [hv] at heq; simp at heq
    | bool b => rw [hv] at heq; simp at heq
    | nullV => rw [hv] at heq; simp at heq
    | undefV => rw [hv] at heq; simp at heq
    | date d => rw [hv] at heq; simp at heq
    | arr xs => rw [hv] at heq; simp at heq

theorem findOrigLang_mem {fs : List (String × JsVal)}
    {lang : String} {lfs : List (String × JsVal)}
    (h : findOrigLang fs = some (lang, lfs)) : (lang, JsVal.obj lfs) ∈ fs := by
  rw [findOrigLang] at h
  have hmem : (lang, lfs) ∈ origLangBlocks fs := by
    cases hb : origLangBlocks fs with
    | nil => rw [hb] at h; simp at h
    | cons b bs =>
      rw [hb] at h
      simp only [List.head?_cons, Option.some.injEq] at h
      rw [← h]
      exact List.mem_cons_self _ _
  rw [origLangBlocks, List.mem_filterMap] at hmem
  obtain ⟨kv0, hmem0, heq⟩ := hmem
  by_cases hmeta : kv0.1 ∈ WORK_META_KEYS
  · simp [hmeta] at heq
  · simp only [hmeta, if_false] at heq
    cases hv : kv0.2 with
    | obj bfs =>
      rw [hv] at heq
      by_cases ht : jsTruthy (jsGet bfs "orig_lang")
      · simp only [ht, if_true, Option.some.injEq] at heq
        have : kv0 = (lang, JsVal.obj lfs) := by
          cases kv0 with
          | mk k0 v0 =>
            simp only at hv
            subst hv
            cases heq
            rfl
        rw [← this]
        exact hmem0
      · simp [ht] at heq
    | str v => rw [hv] at heq; simp at heq
    | num n => rw [hv] at heq; simp at heq
    | bool b => rw [hv] at heq; simp at heq
    | nullV => rw [hv] at heq; simp at heq
    | undefV => rw [hv] at heq; simp at heq
    | date d => rw [hv] at heq; simp at heq
    | arr xs => rw [hv] at heq; simp at heq

/-- The years a top-level entry of a work record contributes to the
fallback scan. -/
def blockYearContribution (kv : String × JsVal) : List Int :=
  if kv.1 ∈ WORK_META_KEYS then []
  else match kv.2 with
    | .obj bfs => edYears (blockEditions bfs)
    | _ => []

theorem optMin_none_right (y : Option Int) : optMin y none = y := by
  cases y <;> simp [optMin]

theorem workYearStep_eq (y : Option Int) (kv : String × JsVal) :
    workYearStep y kv = optMin y (listMinInt (blockYearContribution kv)) := by
  unfold workYearStep blockYearContribution
  by_cases hmeta : kv.1 ∈ WORK_META_KEYS
  · simp [hmeta, listMinInt, optMin_none_right]
  · simp only [hmeta, if_false]
    cases hv : kv.2 with
    | obj bfs =>
      cases hed : jsGet bfs "editions" with
      | arr eds =>
        simp only [hed]
        rw [minYearFold_eq]
        have : blockEditions bfs = eds := by simp [blockEditions, hed]
        rw [this]
      | str v => simp [blockEditions, hed, edYears, listMinInt, optMin_none_right]
      | num n => simp [blockEditions, hed, edYears, listMinInt, optMin_none_right]
      | bool b => simp [blockEditions, hed, edYears, listMinInt, optMin_none_right]
      | nullV => simp [blockEditions, hed, edYears, listMinInt, optMin_none_right]
      | undefV => simp [blockEditions, hed, edYears, listMinInt, optMin_none_right]
      | date d => simp [blockEditions, hed, edYears, listMinInt, optMin_none_right]
      | obj o => simp [blockEditions, hed, edYears, listMinInt, optMin_none_right]
    | str v => simp [listMinInt, optMin_none_right]
    | num n => simp [listMinInt, optMin_none_right]
    | bool b => simp [listMinInt, optMin_none_right]
    | nullV => simp [listMinInt, optMin_none_right]
    | undefV => simp [listMinInt, optMin_none_right]
    | date d => simp [listMinInt, optMin_none_right]
    | arr xs => simp [listMinInt, optMin_none_right]

/-- The fallback scan is the minimum over all blocks' contributed years. -/
theorem workYear_fallback_eq (fs : List (String × JsVal)) (acc : Option Int) :
    fs.foldl workYearStep acc = optMin acc (listMinInt (fs.flatMap blockYearContribution)) := by
  induction fs generalizing acc with
  | nil => simp [listMinInt, optMin_none_right]
  | cons kv fs ih =>
    rw [List.foldl_cons, ih, workYearStep_eq, List.flatMap_cons, listMinInt_append, optMin_assoc]

/-- The contributed years are exactly those of the non-meta object blocks. -/
theorem flatMap_blockYearContribution (fs : List (String × JsVal)) :
    fs.flatMap blockYearContribution =
      (nonMetaObjBlocks fs).flatMap (fun kv => edYears (blockEditions kv.2)) := by
  induction fs with
  | nil => simp [nonMetaObjBlocks]
  | cons kv fs ih =>
    rw [List.flatMap_cons]
    by_cases hmeta : kv.1 ∈ WORK_META_KEYS
    · simp [blockYearContribution, hmeta, nonMetaObjBlocks, List.filterMap_cons]
      rw [← nonMetaObjBlocks, ih]
    · cases hv : kv.2 with
      | obj bfs =>
        simp only [blockYearContribution, hmeta, if_false, hv]
        have : nonMetaObjBlocks (kv :: fs) = (kv.1, bfs) :: nonMetaObjBlocks fs := by
          simp [nonMetaObjBlocks, List.filterMap_cons, hmeta, hv]
        rw [this, List.flatMap_cons, ih]
      | str v =>
        simp only [blockYearContribution, hmeta, if_false, hv]
        have : nonMetaObjBlocks (kv :: fs) = nonMetaObjBlocks fs := by
          simp [nonMetaObjBlocks, List.filterMap_cons, hmeta, hv]
        rw [this, ih]
        simp
      | num n =>
        simp only [blockYearContribution, hmeta, if_false, hv]
        have : nonMetaObjBlocks (kv :: fs) = nonMetaObjBlocks fs := by
          simp [nonMetaObjBlocks, List.filterMap_cons, hmeta, hv]
        rw [this, ih]
        simp
      | bool b =>
        simp only [blockYearContribution, hmeta, if_false, hv]
        have : nonMetaObjBlocks (kv :: fs) = nonMetaObjBlocks fs := by
          simp [nonMetaObjBlocks, List.filterMap_cons, hmeta, hv]
        rw [this, ih]
        simp
      | nullV =>
        simp only [blockYearContribution, hmeta, if_false, hv]
        have : nonMetaObjBlocks (kv :: fs) = nonMetaObjBlocks fs := by
          simp [nonMetaObjBlocks, List.filterMap_cons, hmeta, hv]
        rw [this, ih]
        simp
      | undefV =>
        simp only [blockYearContribution, hmeta, if_false, hv]
        have : nonMetaObjBlocks (kv :: fs) = nonMetaObjBlocks fs := by
          simp [nonMetaObjBlocks, List.filterMap_cons, hmeta, hv]
        rw [this, ih]
        simp
      | date d =>
        simp only [blockYearContribution, hmeta, if_false, hv]
        have : nonMetaObjBlocks (kv :: fs) = nonMetaObjBlocks fs := by
          simp [nonMetaObjBlocks, List.filterMap_cons, hmeta, hv]
        rw [this, ih]
        simp
      | arr xs =>
        simp only [blockYearContribution, hmeta, if_false, hv]
        have : nonMetaObjBlocks (kv :: fs) = nonMetaObjBlocks fs := by
          simp [nonMetaObjBlocks, List.filterMap_cons, hmeta, hv]
        rw [this, ih]
        simp

/-- When the designated block has no dated edition, scanning all blocks
equals scanning the other blocks: the designated block contributes no
years (keys of a JS object are unique). -/
theorem fallback_eq_filtered (fs : List (String × JsVal)) (lang : String)
    (lfs : List (String × JsVal)) (hnd : (fs.map Prod.fst).Nodup)
    (horig : findOrigLang fs = some (lang, lfs))
    (hempty : edYears (blockEditions lfs) = []) :
    listMinInt (fs.flatMap blockYearContribution) =
      listMinInt (((nonMetaObjBlocks fs).filter (fun kv => kv.1 ≠ lang)).flatMap
        (fun kv => edYears (blockEditions kv.2))) := by
  rw [flatMap_blockYearContribution]
  congr 1
  apply flatMap_filter_of_empty
  intro kv hkv hdec
  have hkeq : kv.1 = lang := by simpa using hdec
  have h1 : (kv.1, JsVal.obj kv.2) ∈ fs := mem_nonMetaObjBlocks hkv
  have h2 : (lang, JsVal.obj lfs) ∈ fs := findOrigLang_mem horig
  rw [hkeq] at h1
  have hobj := keysNodup_val_eq hnd h1 h2
  have hfs2 : kv.2 = lfs := by injection hobj
  rw [hfs2]
  exact hempty

/-- The source's year computation equals the spec-side description. -/
theorem workYear_eq_specYear (fs : List (String × JsVal))
    (hnd : (fs.map Prod.fst).Nodup) : workYear fs = specYear fs := by
  unfold workYear specYear
  cases horig : findOrigLang fs with
  | none =>
    simp only
    rw [workYear_fallback_eq, flatMap_blockYearContribution]
    rfl
  | some p =>
    obtain ⟨lang, lfs⟩ := p
    simp only
    have hfrom : (match jsGet lfs "editions" with
        | JsVal.arr eds => minYearFold none eds
        | _ => none) = listMinInt (edYears (blockEditions lfs)) := by
      cases hed : jsGet lfs "editions" with
      | arr eds =>
        have hbe : blockEditions lfs = eds := by simp [blockEditions, hed]
        rw [hbe]
        show minYearFold none eds = listMinInt (edYears eds)
        rw [minYearFold_eq]
        rfl
      | str v => simp [blockEditions, hed, edYears, listMinInt]
      | num n => simp [blockEditions, hed, edYears, listMinInt]
      | bool b => simp [blockEditions, hed, edYears, listMinInt]
      | nullV => simp [blockEditions, hed, edYears, listMinInt]
      | undefV => simp [blockEditions, hed, edYears, listMinInt]
      | date d => simp [blockEditions, hed, edYears, listMinInt]
      | obj o => simp [blockEditions, hed, edYears, listMinInt]
    rw [hfrom]
    cases hmin : listMinInt (edYears (blockEditions lfs)) with
    | some y => simp
    | none =>
      simp only
      rw [workYear_fallback_eq]
      rw [fallback_eq_filtered fs lang lfs hnd horig ((listMinInt_eq_none _).mp hmin)]
      rfl

/-- C2: for every parsed Work, the derived year field equals the minimum
edition year of the designated original-language block, else the minimum
edition year across the other language blocks; editions without a year are
ignored and a work with no dated edition has a null year. The hypothesis
reflects that a JS object cannot hold a duplicate key. -/
theorem parseWork_year_invariant (fid : String) (data : List (String × JsVal))
    (tmap : List (String × JsVal)) (w : Work)
    (hnd : ((workRecordFields (jsGet data fid)).map Prod.fst).Nodup)
    (h : parseWork fid data tmap = some w) :
    w.year = specYear (workRecordFields (jsGet data fid)) := by
  rw [parseWork] at h
  by_cases hw : jsTruthy (jsGet data fid) = true
  · simp only [hw, if_true] at h
    have hrec := Option.some.inj h
    subst hrec
    exact workYear_eq_specYear _ hnd
  · simp only [Bool.not_eq_true] at hw
    simp [hw] at h

/-- The work record of the spec's year scenario. -/
def yearExData : List (String × JsVal) :=
  [("institutio", .obj
    [("author", .str "Q37577"),
     ("la", .obj
       [("orig_lang", .bool true), ("title", .str "Institutio"),
        ("editions", .arr [.obj [("year", .num 1559)], .obj [("year", .num 1541)]])])])]

theorem parseWork_year_invariant_witness :
    (parseWork "institutio" yearExData []).map (fun w => w.year) =
      some (specYear (workRecordFields (jsGet yearExData "institutio"))) ∧
    specYear (workRecordFields (jsGet yearExData "institutio")) = some 1541 := by
  constructor
  · cases hw : parseWork "institutio" yearExData [] with
    | none =>
      exfalso
      rw [parseWork] at hw
      simp [yearExData, jsGet, List.find?, jsTruthy] at hw
    | some w =>
      simp only [Option.map_some']
      exact congrArg some
        (parseWork_year_invariant "institutio" yearExData [] w (by decide) hw)
  · decide

-- --- C3 / C10: display title resolution ---

/-- The English title value of a work record. -/
def enTitleOf (data : List (String × JsVal)) (fid : String) : JsVal :=
  jsGet (workRecordFields (jsGet (workRecordFields (jsGet data fid)) "en")) "title"

/-- The designated original-language title value (undefined when no block
is designated, as in `origLang?.title`). -/
def origTitleOf (data : List (String × JsVal)) (fid : String) : JsVal :=
  match findOrigLang (workRecordFields (jsGet data fid)) with
  | some (_, fs) => jsGet fs "title"
  | none => .undefV

/-- The title of a parsed work is the JS or-chain of the English title,
the original-language title and the work id. -/
theorem parseWork_title_eq (fid : String) (data : List (String × JsVal))
    (tmap : List (String × JsVal)) (w : Work) (h : parseWork fid data tmap = some w) :
    w.title = jsOrV (jsOrV (enTitleOf data fid) (origTitleOf data fid)) (.str fid) := by
  rw [parseWork] at h
  by_cases hw : jsTruthy (jsGet data fid) = true
  · simp only [hw, if_true] at h
    have hrec := Option.some.inj h
    subst hrec
    simp only [enTitleOf, origTitleOf]
  · simp only [Bool.not_eq_true] at hw
    simp [hw] at h

/-- C3: the display title is resolved in strict order — the (truthy)
English title, else the designated original-language title, else the work
id. -/
theorem parseWork_displayTitle_resolution (fid : String) (data : List (String × JsVal))
    (tmap : List (String × JsVal)) (w : Work) (h : parseWork fid data tmap = some w) :
    (jsTruthy (enTitleOf data fid) = true → w.title = enTitleOf data fid) ∧
    (jsTruthy (enTitleOf data fid) = false → jsTruthy (origTitleOf data fid) = true →
      w.title = origTitleOf data fid) ∧
    (jsTruthy (enTitleOf data fid) = false → jsTruthy (origTitleOf data fid) = false →
      w.title = .str fid) := by
  have ht := parseWork_title_eq fid data tmap w h
  refine ⟨?_, ?_, ?_⟩
  · intro htruthy
    rw [ht]
    simp [jsOrV, htruthy]
  · intro hfalse horig
    rw [ht]
    simp [jsOrV, hfalse, horig]
  · intro hfalse horig
    rw [ht]
    simp [jsOrV, hfalse, horig]

theorem parseWork_displayTitle_resolution_witness :
    (parseWork "institutio" yearExData []).map (fun w => w.title) =
      some (.str "Institutio") := by
  cases hw : parseWork "institutio" yearExData [] with
  | none =>
    exfalso
    rw [parseWork] at hw
    simp [yearExData, jsGet, List.find?, jsTruthy] at hw
  | some w =>
    have hres := (parseWork_displayTitle_resolution "institutio" yearExData [] w hw).2.1
      (by rfl) (by rfl)
    simp only [Option.map_some']
    rw [hres]
    rfl

/-- C10: presence of the English title is decided by truthiness, not key
existence — a falsy en.title value (such as the empty string) makes the
display title fall back to the original-language title, else the work id,
exactly the as-if-absent or-chain. -/
theorem parseWork_title_truthiness (fid : String) (data : List (String × JsVal))
    (tmap : List (String × JsVal)) (w : Work) (v : JsVal)
    (h : parseWork fid data tmap = some w)
    (hv : enTitleOf data fid = v) (hfalsy : jsTruthy v = false) :
    w.title = jsOrV (origTitleOf data fid) (.str fid) := by
  have ht := parseWork_title_eq fid data tmap w h
  rw [ht]
  subst hv
  simp [jsOrV, hfalsy]

/-- A work record whose en block binds title to the empty string. -/
def titleFalsyExData : List (String × JsVal) :=
  [("opus", .obj
    [("author", .str "Q1"),
     ("en", .obj [("title", .str "")]),
     ("la", .obj [("orig_lang", .bool true), ("title", .str "Institutio")])])]

theorem parseWork_title_truthiness_witness :
    (parseWork "opus" titleFalsyExData []).map (fun w => w.title) =
      some (.str "Institutio") := by
  cases hw : parseWork "opus" titleFalsyExData [] with
  | none =>
    exfalso
    rw [parseWork] at hw
    simp [titleFalsyExData, jsGet, List.find?, jsTruthy] at hw
  | some w =>
    have hres := parseWork_title_truthiness "opus" titleFalsyExData [] w (.str "")
      hw (by rfl) (by rfl)
    simp only [Option.map_some']
    rw [hres]
    rfl

-- --- Topic index display names (computeDisplayNames) ---

/-- Truthiness of an optional number (a JS variable holding a number or
null). -/
def optIntTruthy : Option Int → Bool
  | some n => n ≠ 0
  | none => false

/-- One work/section reference under a topic author. -/
structure IndexEntry where
  workId : String
  workTitle : JsVal
  sectionId : Option String
  sectionTitle : Option String

/-- One author entry of a topic in the loci index, before and after the
display-name pass (displayName is none before it). -/
structure TopicAuthor where
  name : String
  slug : String
  qid : String
  familyName : String
  givenName : String
  birthYear : Option Int
  shortName : Option String
  entries : List IndexEntry
  displayName : Option String

/-- Appending an author to its family group: an existing family keeps its
position in the grouping object with the author pushed onto it, a new
family is appended (JS object keys are unique and keep insertion order). -/
def groupPush : List (String × List TopicAuthor) → String → TopicAuthor →
    List (String × List TopicAuthor)
  | [], fam, a => [(fam, [a])]
  | g :: gs, fam, a =>
    if g.1 = fam then (g.1, g.2 ++ [a]) :: gs else g :: groupPush gs fam a

/-- The first grouping pass of computeDisplayNames: group the entries by
family name, skipping entries with a shortName override. -/
def byFamilyGroups (authors : List TopicAuthor) : List (String × List TopicAuthor) :=
  authors.foldl (fun acc a =>
    if optStrTruthy a.shortName then acc
    else groupPush acc a.familyName a) []

/-- byFamily[fam] (empty when the family was never grouped). -/
def peersOf (byFamily : List (String × List TopicAuthor)) (fam : String) :
    List TopicAuthor :=
  ((byFamily.find? (fun g => g.1 = fam)).map (fun g => g.2)).getD []

/-- The display name of one entry, given the topic's family grouping:
shortName verbatim when present; the bare family name when unique; the
given initial plus family name on a collision; the birth year appended
when the initial collides too and a birth year is present. -/
def displayNameFor (byFamily : List (String × List TopicAuthor)) (a : TopicAuthor) : String :=
  if optStrTruthy a.shortName then a.shortName.getD ""
  else
    let fam := a.familyName
    let peers := peersOf byFamily fam
    if peers.length = 1 then fam
    else
      let initial := if a.givenName ≠ "" then a.givenName.take 1 ++ "." else ""
      let sameInitial := peers.filter (fun p =>
        p.givenName ≠ "" && p.givenName.take 1 == (if a.givenName ≠ "" then a.givenName.take 1 else ""))
      if sameInitial.length > 1 then
        initial ++ " " ++ fam ++
          (if optIntTruthy a.birthYear then " (b. " ++ toString (a.birthYear.getD 0) ++ ")" else "")
      else initial ++ " " ++ fam

/-- The second pass over the whole index: every topic's author entries get
their displayName computed against that topic's own grouping. -/
def computeDisplayNames (index : List (String × List TopicAuthor)) :
    List (String × List TopicAuthor) :=
  index.map (fun sv =>
    (sv.1,
     sv.2.map (fun a => { a with displayName := some (displayNameFor (byFamilyGroups sv.2) a) })))

theorem peersOf_groupPush (groups : List (String × List TopicAuthor)) (fam : String)
    (a : TopicAuthor) (fam' : String) :
    peersOf (groupPush groups fam a) fam' =
      if fam' = fam then peersOf groups fam ++ [a] else peersOf groups fam' := by
  induction groups with
  | nil =>
    by_cases h : fam' = fam
    · subst h
      simp [groupPush, peersOf, List.find?]
    · have h' : ¬ fam = fam' := fun hh => h hh.symm
      simp [groupPush, peersOf, List.find?, h, h']
  | cons g gs ih =>
    by_cases h1 : g.1 = fam
    · by_cases h2 : fam' = fam
      · subst h2
        simp [groupPush, peersOf, List.find?_cons, h1]
      · have h3 : ¬ g.1 = fam' := fun hh => h2 ((hh ▸ h1 : fam' = fam))
        have h4 : ¬ fam = fam' := fun hh => h2 hh.symm
        simp [groupPush, peersOf, List.find?_cons, h1, h2, h3, h4]
    · by_cases h2 : fam' = fam
      · subst h2
        have h1' : ¬ g.1 = fam' := h1
        have ih' := ih
        rw [if_pos rfl] at ih'
        simp only [peersOf] at ih'
        simp [groupPush, peersOf, List.find?_cons, h1', ih']
      · by_cases h3 : g.1 = fam'
        · simp [groupPush, peersOf, List.find?_cons, h1, h2, h3]
        · have ih' := ih
          rw [if_neg h2] at ih'
          simp only [peersOf] at ih'
          simp [groupPush, peersOf, List.find?_cons, h1, h2, h3, ih']

/-- The family grouping collects, per family name, exactly the topic's
non-overridden entries with that family name, in order. -/
theorem peersOf_byFamilyGroups (authors : List TopicAuthor) (fam : String) :
    peersOf (byFamilyGroups authors) fam =
      authors.filter (fun x => !optStrTruthy x.shortName && x.familyName == fam) := by
  suffices h : ∀ acc, peersOf (authors.foldl (fun acc a =>
      if optStrTruthy a.shortName then acc else groupPush acc a.familyName a) acc) fam =
      peersOf acc fam ++ authors.filter (fun x => !optStrTruthy x.shortName && x.familyName == fam) by
    have := h []
    rw [byFamilyGroups, this]
    simp [peersOf, List.find?]
  induction authors with
  | nil => intro acc; simp
  | cons a rest ih =>
    intro acc
    rw [List.foldl_cons]
    by_cases hshort : optStrTruthy a.shortName = true
    · rw [if_pos hshort]
      rw [ih acc]
      simp [List.filter_cons, hshort]
    · rw [if_neg hshort]
      have hs0 : optStrTruthy a.shortName = false := by simpa using hshort
      rw [ih (groupPush acc a.familyName a), peersOf_groupPush]
      by_cases hfam : a.familyName = fam
      · rw [if_pos hfam.symm, hfam]
        simp [List.filter_cons, hs0, hfam]
      · rw [if_neg (fun hh => hfam hh.symm)]
        simp [List.filter_cons, hs0, hfam]

theorem initial_append (s t : String) : s ++ "." ++ " " ++ t = s ++ ". " ++ t := by
  have h2 : ("." : String) ++ " " = ". " := by decide
  have h1 : s ++ "." ++ " " = s ++ ". " := by
    rw [String.append_assoc, h2]
  rw [h1]

/-- C1: after the second pass, for every topic of the index: an entry with
a shortName override keeps it verbatim and the family grouping ranges only
over the non-overridden entries; a unique family name is used bare; a
family collision produces initial-dot-space-family; and when at least two
colliding entries share the given initial, a present birth year is
appended as a parenthesized suffix. -/
theorem computeDisplayNames_disambiguation
    (index : List (String × List TopicAuthor)) (slug : String)
    (authors : List TopicAuthor) (a : TopicAuthor)
    (hmem : (slug, authors) ∈ index) (ha : a ∈ authors) :
    ((slug, authors.map (fun x =>
        { x with displayName := some (displayNameFor (byFamilyGroups authors) x) })) ∈
      computeDisplayNames index) ∧
    (∀ fam, peersOf (byFamilyGroups authors) fam =
      authors.filter (fun x => !optStrTruthy x.shortName && x.familyName == fam)) ∧
    (optStrTruthy a.shortName = true →
      displayNameFor (byFamilyGroups authors) a = a.shortName.getD "") ∧
    (optStrTruthy a.shortName = false →
      (authors.filter (fun x => !optStrTruthy x.shortName && x.familyName == a.familyName)).length = 1 →
      displayNameFor (byFamilyGroups authors) a = a.familyName) ∧
    (optStrTruthy a.shortName = false → a.givenName ≠ "" →
      2 ≤ (authors.filter (fun x => !optStrTruthy x.shortName && x.familyName == a.familyName)).length →
      ((authors.filter (fun x => !optStrTruthy x.shortName && x.familyName == a.familyName)).filter
          (fun p => p.givenName ≠ "" && p.givenName.take 1 == a.givenName.take 1)).length ≤ 1 →
      displayNameFor (byFamilyGroups authors) a =
        a.givenName.take 1 ++ ". " ++ a.familyName) ∧
    (optStrTruthy a.shortName = false → a.givenName ≠ "" →
      ∀ y : Int, a.birthYear = some y → y ≠ 0 →
      2 ≤ (authors.filter (fun x => !optStrTruthy x.shortName && x.familyName == a.familyName)).length →
      2 ≤ ((authors.filter (fun x => !optStrTruthy x.shortName && x.familyName == a.familyName)).filter
          (fun p => p.givenName ≠ "" && p.givenName.take 1 == a.givenName.take 1)).length →
      displayNameFor (byFamilyGroups authors) a =
        (a.givenName.take 1 ++ ". " ++ a.familyName) ++ (" (b. " ++ toString y ++ ")")) := by
  have hpeers := peersOf_byFamilyGroups authors
  refine ⟨List.mem_map_of_mem _ hmem, hpeers, ?_, ?_, ?_, ?_⟩
  · intro hs
    simp only [displayNameFor]
    rw [if_pos hs]
  · intro hs hlen
    simp only [displayNameFor, hpeers]
    rw [if_neg (show ¬ optStrTruthy a.shortName = true by rw [hs]; simp)]
    rw [if_pos hlen]
  · intro hs hg hlen hsame
    simp only [displayNameFor, hpeers]
    rw [if_neg (show ¬ optStrTruthy a.shortName = true by rw [hs]; simp)]
    rw [if_neg (show ¬ (authors.filter (fun x => !optStrTruthy x.shortName &&
      x.familyName == a.familyName)).length = 1 by omega)]
    have hgif : (if a.givenName ≠ "" then a.givenName.take 1 else "") = a.givenName.take 1 :=
      if_pos hg
    have hgif2 : (if a.givenName ≠ "" then a.givenName.take 1 ++ "." else "") =
        a.givenName.take 1 ++ "." := if_pos hg
    simp only [hgif, hgif2]
    rw [if_neg (show ¬ ((authors.filter (fun x => !optStrTruthy x.shortName &&
      x.familyName == a.familyName)).filter
        (fun p => p.givenName ≠ "" && p.givenName.take 1 == a.givenName.take 1)).length > 1
      by omega)]
    exact initial_append _ _
  · intro hs hg y hy hy0 hlen hsame
    simp only [displayNameFor, hpeers]
    rw [if_neg (show ¬ optStrTruthy a.shortName = true by rw [hs]; simp)]
    rw [if_neg (show ¬ (authors.filter (fun x => !optStrTruthy x.shortName &&
      x.familyName == a.familyName)).length = 1 by omega)]
    have hgif : (if a.givenName ≠ "" then a.givenName.take 1 else "") = a.givenName.take 1 :=
      if_pos hg
    have hgif2 : (if a.givenName ≠ "" then a.givenName.take 1 ++ "." else "") =
        a.givenName.take 1 ++ "." := if_pos hg
    simp only [hgif, hgif2]
    rw [if_pos (show ((authors.filter (fun x => !optStrTruthy x.shortName &&
      x.familyName == a.familyName)).filter
        (fun p => p.givenName ≠ "" && p.givenName.take 1 == a.givenName.take 1)).length > 1
      by omega)]
    rw [if_pos (show optIntTruthy a.birthYear = true by rw [hy]; simpa [optIntTruthy] using hy0)]
    rw [hy]
    simp only [Option.getD_some]
    rw [initial_append]

/-- The three Turretins of the spec's collision scenario. -/
def turretinFrancis : TopicAuthor :=
  { name := "Francis Turretin", slug := "francis-turretin", qid := "Q1",
    familyName := "Turretin", givenName := "Francis", birthYear := some 1623,
    shortName := none, entries := [], displayName := none }

def turretinJean : TopicAuthor :=
  { name := "Jean-Alphonse Turretin", slug := "jean-alphonse-turretin", qid := "Q2",
    familyName := "Turretin", givenName := "Jean-Alphonse", birthYear := some 1671,
    shortName := none, entries := [], displayName := none }

def turretinBenedict : TopicAuthor :=
  { name := "Benedict Turretin", slug := "benedict-turretin", qid := "Q3",
    familyName := "Turretin", givenName := "Benedict", birthYear := some 1579,
    shortName := none, entries := [], displayName := none }

def turretinAuthors : List TopicAuthor :=
  [turretinFrancis, turretinJean, turretinBenedict]

theorem computeDisplayNames_disambiguation_witness :
    displayNameFor (byFamilyGroups turretinAuthors) turretinFrancis = "F. Turretin" ∧
    displayNameFor (byFamilyGroups turretinAuthors) turretinJean = "J. Turretin" ∧
    displayNameFor (byFamilyGroups turretinAuthors) turretinBenedict = "B. Turretin" := by
  refine ⟨?_, ?_, ?_⟩
  · have h := computeDisplayNames_disambiguation [("predestination", turretinAuthors)]
      "predestination" turretinAuthors turretinFrancis (List.mem_cons_self _ _)
      (List.mem_cons_self _ _)
    rw [h.2.2.2.2.1 (by decide) (by decide) (by decide) (by decide)]
    decide
  · have h := computeDisplayNames_disambiguation [("predestination", turretinAuthors)]
      "predestination" turretinAuthors turretinJean (List.mem_cons_self _ _)
      (List.mem_cons_of_mem _ (List.mem_cons_self _ _))
    rw [h.2.2.2.2.1 (by decide) (by decide) (by decide) (by decide)]
    decide
  · have h := computeDisplayNames_disambiguation [("predestination", turretinAuthors)]
      "predestination" turretinAuthors turretinBenedict (List.mem_cons_self _ _)
      (List.mem_cons_of_mem _ (List.mem_cons_of_mem _ (List.mem_cons_self _ _)))
    rw [h.2.2.2.2.1 (by decide) (by decide) (by decide) (by decide)]
    decide

/-- Helper: under a family and initial collision, an entry without a
truthy birth year gets the bare initial-plus-family form. -/
theorem displayNameFor_initial_noYear (authors : List TopicAuthor) (a : TopicAuthor)
    (hs : optStrTruthy a.shortName = false) (hg : a.givenName ≠ "")
    (hby : optIntTruthy a.birthYear = false)
    (hlen : 2 ≤ (authors.filter (fun x =>
      !optStrTruthy x.shortName && x.familyName == a.familyName)).length)
    (hsame : 2 ≤ ((authors.filter (fun x =>
        !optStrTruthy x.shortName && x.familyName == a.familyName)).filter
      (fun p => p.givenName ≠ "" && p.givenName.take 1 == a.givenName.take 1)).length) :
    displayNameFor (byFamilyGroups authors) a =
      a.givenName.take 1 ++ ". " ++ a.familyName := by
  have hpeers := peersOf_byFamilyGroups authors
  simp only [displayNameFor, hpeers]
  rw [if_neg (show ¬ optStrTruthy a.shortName = true by rw [hs]; simp)]
  rw [if_neg (show ¬ (authors.filter (fun x => !optStrTruthy x.shortName &&
    x.familyName == a.familyName)).length = 1 by omega)]
  have hgif : (if a.givenName ≠ "" then a.givenName.take 1 else "") = a.givenName.take 1 :=
    if_pos hg
  have hgif2 : (if a.givenName ≠ "" then a.givenName.take 1 ++ "." else "") =
      a.givenName.take 1 ++ "." := if_pos hg
  simp only [hgif, hgif2]
  rw [if_pos (show ((authors.filter (fun x => !optStrTruthy x.shortName &&
    x.familyName == a.familyName)).filter
      (fun p => p.givenName ≠ "" && p.givenName.take 1 == a.givenName.take 1)).length > 1
    by omega)]
  rw [if_neg (show ¬ optIntTruthy a.birthYear = true by rw [hby]; simp)]
  rw [String.append_empty]
  exact initial_append _ _

/-- C9: in the display-name disambiguation, a colliding entry (same family
name and same given initial as at least one other non-overridden entry)
with no truthy birth year gets no birth-year suffix, so two such entries
receive identical display names. -/
theorem displayName_null_birthYear
    (authors : List TopicAuthor) (a : TopicAuthor) (ha : a ∈ authors)
    (hs : optStrTruthy a.shortName = false) (hg : a.givenName ≠ "")
    (hby : optIntTruthy a.birthYear = false)
    (hlen : 2 ≤ (authors.filter (fun x =>
      !optStrTruthy x.shortName && x.familyName == a.familyName)).length)
    (hsame : 2 ≤ ((authors.filter (fun x =>
        !optStrTruthy x.shortName && x.familyName == a.familyName)).filter
      (fun p => p.givenName ≠ "" && p.givenName.take 1 == a.givenName.take 1)).length) :
    displayNameFor (byFamilyGroups authors) a =
      a.givenName.take 1 ++ ". " ++ a.familyName ∧
    (∀ b ∈ authors, optStrTruthy b.shortName = false → b.givenName ≠ "" →
      optIntTruthy b.birthYear = false → b.familyName = a.familyName →
      b.givenName.take 1 = a.givenName.take 1 →
      displayNameFor (byFamilyGroups authors) b =
        displayNameFor (byFamilyGroups authors) a) := by
  have h1 := displayNameFor_initial_noYear authors a hs hg hby hlen hsame
  refine ⟨h1, ?_⟩
  intro b _hb hbs hbg hbby hbfam hbini
  have hlenb : 2 ≤ (authors.filter (fun x =>
      !optStrTruthy x.shortName && x.familyName == b.familyName)).length := by
    simp only [hbfam]
    exact hlen
  have hsameb : 2 ≤ ((authors.filter (fun x =>
      !optStrTruthy x.shortName && x.familyName == b.familyName)).filter
    (fun p => p.givenName ≠ "" && p.givenName.take 1 == b.givenName.take 1)).length := by
    simp only [hbfam, hbini]
    exact hsame
  have h2 := displayNameFor_initial_noYear authors b hbs hbg hbby hlenb hsameb
  rw [h1, h2, hbfam, hbini]

/-- Two colliding authors named John Owen, both without a birth year. -/
def owenOne : TopicAuthor :=
  { name := "John Owen", slug := "john-owen", qid := "Q10",
    familyName := "Owen", givenName := "John", birthYear := none,
    shortName := none, entries := [], displayName := none }

def owenTwo : TopicAuthor :=
  { name := "John Owen", slug := "john-owen-2", qid := "Q11",
    familyName := "Owen", givenName := "John", birthYear := none,
    shortName := none, entries := [], displayName := none }

def owenAuthors : List TopicAuthor := [owenOne, owenTwo]

theorem displayName_null_birthYear_witness :
    displayNameFor (byFamilyGroups owenAuthors) owenOne = "J. Owen" ∧
    displayNameFor (byFamilyGroups owenAuthors) owenTwo =
      displayNameFor (byFamilyGroups owenAuthors) owenOne := by
  have h := displayName_null_birthYear owenAuthors owenOne (List.mem_cons_self _ _)
    (by decide) (by decide) (by decide) (by decide) (by decide)
  refine ⟨?_, ?_⟩
  · rw [h.1]
    decide
  · exact h.2 owenTwo (List.mem_cons_of_mem _ (List.mem_cons_self _ _))
      (by decide) (by decide) (by decide) (by decide) (by decide)

-- --- Stable sorting (Array.prototype.sort is stable) ---

/-- Insert before the first element that a compares le to. -/
def orderedInsertBy {α : Type} (le : α → α → Bool) (a : α) : List α → List α
  | [] => [a]
  | b :: l => if le a b then a :: b :: l else b :: orderedInsertBy le a l

/-- Stable insertion sort: an earlier element precedes every equivalent
later one, modelling the stable JS Array.prototype.sort. -/
def insertionSortBy {α : Type} (le : α → α → Bool) : List α → List α
  | [] => []
  | a :: l => orderedInsertBy le a (insertionSortBy le l)

/-- JS sort with the numeric comparator (a, b) => key a - key b. -/
def jsSortByKey {α : Type} (key : α → Int) (l : List α) : List α :=
  insertionSortBy (fun a b => decide (key a ≤ key b)) l

theorem orderedInsertBy_perm {α : Type} (le : α → α → Bool) (a : α) (l : List α) :
    List.Perm (orderedInsertBy le a l) (a :: l) := by
  induction l with
  | nil => simp [orderedInsertBy]
  | cons b l ih =>
    by_cases hle : le a b = true
    · simp [orderedInsertBy, hle]
    · simp only [orderedInsertBy, hle]
      rw [if_neg (by simpa using hle)]
      exact (List.Perm.cons b ih).trans (List.Perm.swap a b l)

theorem insertionSortBy_perm {α : Type} (le : α → α → Bool) (l : List α) :
    List.Perm (insertionSortBy le l) l := by
  induction l with
  | nil => simp [insertionSortBy]
  | cons a l ih =>
    exact (orderedInsertBy_perm le a _).trans (List.Perm.cons a ih)

theorem orderedInsertBy_pairwise {α : Type} (le : α → α → Bool)
    (htrans : ∀ a b c, le a b = true → le b c = true → le a c = true)
    (htot : ∀ a b, le a b = true ∨ le b a = true) (a : α) (l : List α)
    (hl : List.Pairwise (fun x y => le x y = true) l) :
    List.Pairwise (fun x y => le x y = true) (orderedInsertBy le a l) := by
  induction l with
  | nil => simp [orderedInsertBy]
  | cons b l ih =>
    rw [List.pairwise_cons] at hl
    by_cases hle : le a b = true
    · simp only [orderedInsertBy, hle, if_true]
      rw [List.pairwise_cons]
      refine ⟨?_, List.pairwise_cons.mpr hl⟩
      intro c hc
      rcases List.mem_cons.mp hc with hc | hc
      · rw [hc]
        exact hle
      · exact htrans a b c hle (hl.1 c hc)
    · simp only [orderedInsertBy, hle]
      rw [if_neg (by simpa using hle)]
      rw [List.pairwise_cons]
      refine ⟨?_, ih hl.2⟩
      intro c hc
      have hc' := (orderedInsertBy_perm le a l).mem_iff.mp hc
      rcases List.mem_cons.mp hc' with hc' | hc'
      · rw [hc']
        rcases htot a b with h | h
        · exact absurd h hle
        · exact h
      · exact hl.1 c hc'

theorem insertionSortBy_pairwise {α : Type} (le : α → α → Bool)
    (htrans : ∀ a b c, le a b = true → le b c = true → le a c = true)
    (htot : ∀ a b, le a b = true ∨ le b a = true) (l : List α) :
    List.Pairwise (fun x y => le x y = true) (insertionSortBy le l) := by
  induction l with
  | nil => simp [insertionSortBy]
  | cons a l ih => exact orderedInsertBy_pairwise le htrans htot a _ ih

theorem filter_orderedInsertBy_pos {α : Type} (le : α → α → Bool) (p : α → Bool)
    (a : α) (l : List α) (hpa : p a = true)
    (hkey : ∀ b ∈ l, p b = true → le a b = true) :
    (orderedInsertBy le a l).filter p = a :: l.filter p := by
  induction l with
  | nil => simp [orderedInsertBy, hpa]
  | cons b l ih =>
    by_cases hle : le a b = true
    · simp [orderedInsertBy, hle, List.filter_cons, hpa]
    · have hpb : p b = false := by
        cases hpbv : p b with
        | true => exact absurd (hkey b (List.mem_cons_self _ _) hpbv) (by simpa using hle)
        | false => rfl
      simp only [orderedInsertBy, hle]
      rw [if_neg (by simpa using hle)]
      rw [List.filter_cons, List.filter_cons]
      simp only [hpb]
      exact ih (fun c hc hpc => hkey c (List.mem_cons_of_mem _ hc) hpc)

theorem filter_orderedInsertBy_neg {α : Type} (le : α → α → Bool) (p : α → Bool)
    (a : α) (l : List α) (hpa : p a = false) :
    (orderedInsertBy le a l).filter p = l.filter p := by
  induction l with
  | nil => simp [orderedInsertBy, hpa]
  | cons b l ih =>
    by_cases hle : le a b = true
    · simp [orderedInsertBy, hle, List.filter_cons, hpa]
    · simp only [orderedInsertBy, hle]
      rw [if_neg (by simpa using hle)]
      rw [List.filter_cons, List.filter_cons, ih]

/-- Stability: elements the predicate selects (say, one equivalence class
of the sort key, on which le always holds) come out of the sort in their
input order. -/
theorem insertionSortBy_filter_stable {α : Type} (le : α → α → Bool) (p : α → Bool)
    (hkey : ∀ a b, p a = true → p b = true → le a b = true) (l : List α) :
    (insertionSortBy le l).filter p = l.filter p := by
  induction l with
  | nil => rfl
  | cons a l ih =>
    cases hpa : p a with
    | true =>
      rw [insertionSortBy,
        filter_orderedInsertBy_pos le p a _ hpa (fun b _ hpb => hkey a b hpa hpb), ih,
        List.filter_cons]
      simp [hpa]
    | false =>
      rw [insertionSortBy, filter_orderedInsertBy_neg le p a _ hpa, ih, List.filter_cons]
      simp [hpa]

-- --- Author pages (buildAuthorPages and helpers) ---

/-- A cached author profile from _cache/authors. -/
structure AuthorMeta where
  qid : String
  name : String
  slug : String
  birthYear : Option Int
  deathYear : Option Int
  imageUrl : Option String
  wikipediaUrl : Option String
  prdlId : Option String
  openLibraryId : Option String
  labels : List (String × String)

/-- getAuthorMeta(qid, authors): the cached profile, else the synthesized
stub. -/
def getAuthorMeta (qid : String) (authors : List (String × AuthorMeta)) : AuthorMeta :=
  (jsObjGet authors qid).getD
    { qid := qid, name := qid, slug := slugify qid, birthYear := none, deathYear := none,
      imageUrl := none, wikipediaUrl := none, prdlId := none, openLibraryId := none,
      labels := [] }

/-- `v || null` on an optional string. -/
def optStrOr (v : Option String) : Option String :=
  if optStrTruthy v then v else none

/-- `v || null` on an optional number. -/
def optIntOr (v : Option Int) : Option Int :=
  if optIntTruthy v then v else none

/-- `year || 9999` as the numeric sort key of an optional year. -/
def yearKeyB : Option Int → Int
  | some y => if y ≠ 0 then y else 9999
  | none => 9999

/-- String.prototype.replace with a string pattern replaces the first
occurrence only. -/
def replaceFirst (s pat rep : String) : String :=
  match s.splitOn pat with
  | [] => s
  | [x] => x
  | x :: y :: rest => x ++ rep ++ String.intercalate pat (y :: rest)

/-- The Wikimedia Commons page url derived from a truthy image url. -/
def commonsUrlOf (imageUrl : Option String) : Option String :=
  if optStrTruthy imageUrl then
    some (replaceFirst (replaceFirst (imageUrl.getD "") "http://" "https://")
      "Special:FilePath/" "File:")
  else none

/-- One language label shown on an author page. -/
structure AuthorLabel where
  lang : String
  label : String

/-- One author page (individual pages leave isCorporate/members at their
JS-undefined defaults false/empty). -/
structure AuthorPage where
  qid : String
  name : String
  slug : String
  birthYear : Option Int
  deathYear : Option Int
  imageUrl : Option String
  commonsUrl : Option String
  wikipediaUrl : Option String
  prdlId : Option String
  openLibraryId : Option String
  origLangName : String
  authorLabels : List AuthorLabel
  tradition : Option String
  isCorporate : Bool
  members : List MemberRef
  works : List Work

/-- The accumulator entry of one corporate author, keyed by slug. -/
structure CorpAcc where
  label : String
  slug : String
  qid : Option String
  meta : Option AuthorMeta
  memberQids : List String
  works : List Work

/-- Adding to a JS Set: insertion order kept, duplicates dropped. -/
def setAdd (l : List String) (x : String) : List String :=
  if x ∈ l then l else l ++ [x]

/-- The slug-resolution mutation at the top of the works loop: a deferred
corporate slug is filled in from the cached profile, else slugified from
the label. -/
def resolveCorp (w : Work) (authors : List (String × AuthorMeta)) : Work :=
  match w.corporateAuthor with
  | some ca =>
    if optStrTruthy ca.qid ∧ ¬ optStrTruthy ca.slug then
      { w with corporateAuthor := some { ca with slug := some (
          match jsObjGet authors (ca.qid.getD "") with
          | some m => m.slug
          | none => slugify ca.label) } }
    else w
  | none => w

/-- The copy of a work placed on one individual author page; a work with a
corporate author gets the coMembers cross-reference to the other listed
authors. -/
def workCopyFor (w : Work) (qid : String) (authors : List (String × AuthorMeta)) : Work :=
  if w.corporateAuthor.isSome then
    { w with coMembers := some ((w.authors.filter (fun q => q ≠ qid)).map (fun q =>
        { qid := q, name := (getAuthorMeta q authors).name,
          slug := (getAuthorMeta q authors).slug })) }
  else w

/-- One individual author page. -/
def mkIndividualPage (qid : String) (authorWorks : List Work)
    (authors : List (String × AuthorMeta))
    (traditionAuthors : List (String × String)) : AuthorPage :=
  let meta := getAuthorMeta qid authors
  let sorted := jsSortByKey (fun w => yearKeyB w.year) authorWorks
  let origLangCodes := jsSetDedup ((sorted.map Work.origLang).filterMap (fun o =>
    if optStrTruthy o then some (o.getD "") else none))
  let authorLabels := origLangCodes.foldl (fun acc lang =>
    if lang = "en" then acc
    else if optStrTruthy (jsObjGet meta.labels lang) then
      acc ++ [{ lang := lang, label := (jsObjGet meta.labels lang).getD "" }]
    else acc) ([] : List AuthorLabel)
  let origLangName :=
    if origLangCodes ≠ [] ∧ optStrTruthy (jsObjGet meta.labels (origLangCodes.headD "")) then
      (jsObjGet meta.labels (origLangCodes.headD "")).getD ""
    else meta.name
  { qid := qid, name := meta.name, slug := meta.slug, birthYear := meta.birthYear,
    deathYear := meta.deathYear, imageUrl := meta.imageUrl,
    commonsUrl := commonsUrlOf meta.imageUrl,
    wikipediaUrl := optStrOr meta.wikipediaUrl, prdlId := optStrOr meta.prdlId,
    openLibraryId := optStrOr meta.openLibraryId,
    origLangName := origLangName, authorLabels := authorLabels,
    tradition := optStrOr (jsObjGet traditionAuthors qid),
    isCorporate := false, members := [], works := sorted }

/-- One corporate author page. -/
def mkCorporatePage (ca : CorpAcc) (authors : List (String × AuthorMeta))
    (traditionAuthors : List (String × String)) : AuthorPage :=
  let members := ca.memberQids.map (fun q =>
    ({ qid := q, name := (getAuthorMeta q authors).name,
       slug := (getAuthorMeta q authors).slug } : MemberRef))
  let sorted := jsSortByKey (fun w => yearKeyB w.year) ca.works
  { qid := if optStrTruthy ca.qid then ca.qid.getD "" else ca.slug,
    name := ca.label, slug := ca.slug,
    birthYear := optIntOr (ca.meta.bind AuthorMeta.birthYear),
    deathYear := optIntOr (ca.meta.bind AuthorMeta.deathYear),
    imageUrl := optStrOr (ca.meta.bind AuthorMeta.imageUrl),
    commonsUrl := commonsUrlOf (ca.meta.bind AuthorMeta.imageUrl),
    wikipediaUrl := optStrOr (ca.meta.bind AuthorMeta.wikipediaUrl),
    prdlId := optStrOr (ca.meta.bind AuthorMeta.prdlId),
    openLibraryId := optStrOr (ca.meta.bind AuthorMeta.openLibraryId),
    origLangName := ca.label, authorLabels := [],
    tradition := if optStrTruthy ca.qid then
        optStrOr (jsObjGet traditionAuthors (ca.qid.getD "")) else none,
    isCorporate := true, members := members, works := sorted }

/-- One iteration of the works loop of buildAuthorPages: resolve the
corporate slug, accumulate the corporate grouping, and push a per-author
copy of the work onto each listed author. -/
def buildAuthorPagesStep (authors : List (String × AuthorMeta))
    (st : List (String × List Work) × List (String × CorpAcc)) (w0 : Work) :
    List (String × List Work) × List (String × CorpAcc) :=
  let w := resolveCorp w0 authors
  let corp :=
    match w.corporateAuthor with
    | some ca =>
      let caKey := ca.slug.getD ""
      let corp0 :=
        if st.2.any (fun e => e.1 = caKey) then st.2
        else st.2 ++ [(caKey,
          { label := ca.label
            slug := caKey
            qid := ca.qid
            meta := match ca.qid with
              | some q => jsObjGet authors q
              | none => none
            memberQids := []
            works := [] })]
      corp0.map (fun e => if e.1 = caKey then
        (e.1,
         { e.2 with
           memberQids := w.authors.foldl setAdd e.2.memberQids
           works := e.2.works ++ [w] }) else e)
    | none => st.2
  let byAuthor := w.authors.foldl (fun ba qid =>
    if ba.any (fun e => e.1 = qid) then
      ba.map (fun e => if e.1 = qid then (e.1, e.2 ++ [workCopyFor w qid authors]) else e)
    else ba ++ [(qid, [workCopyFor w qid authors])]) st.1
  (byAuthor, corp)

/-- buildAuthorPages(works, authors, traditionAuthors): individual pages
in order of first appearance of each author, corporate pages appended,
the whole list stably sorted by birth year (missing birth year = 9999). -/
def buildAuthorPages (works : List Work) (authors : List (String × AuthorMeta))
    (traditionAuthors : List (String × String)) : List AuthorPage :=
  let st := works.foldl (buildAuthorPagesStep authors) ([], [])
  let pages := st.1.map (fun e => mkIndividualPage e.1 e.2 authors traditionAuthors) ++
    st.2.map (fun e => mkCorporatePage e.2 authors traditionAuthors)
  jsSortByKey (fun p => yearKeyB p.birthYear) pages

theorem jsSortByKey_perm {α : Type} (key : α → Int) (l : List α) :
    List.Perm (jsSortByKey key l) l :=
  insertionSortBy_perm _ l

theorem jsSortByKey_singleton {α : Type} (key : α → Int) (x : α) :
    jsSortByKey key [x] = [x] := rfl

theorem countP_eq_one_of_nodup_mem {l : List String} (hnd : l.Nodup) {x : String}
    (hx : x ∈ l) : l.countP (fun q => q == x) = 1 := by
  induction l with
  | nil => simp at hx
  | cons a l ih =>
    rw [List.nodup_cons] at hnd
    rcases List.mem_cons.mp hx with hx | hx
    · subst hx
      have h0 : l.countP (fun q => q == x) = 0 := by
        rw [List.countP_eq_zero]
        intro b hb
        simp only [beq_iff_eq]
        intro he
        exact hnd.1 (he ▸ hb)
      rw [List.countP_cons, h0]
      simp
    · have hne : ¬ (a == x) = true := by
        simp only [beq_iff_eq]
        intro he
        exact hnd.1 (he ▸ hx)
      rw [List.countP_cons, ih hnd.2 hx]
      simp [hne]

theorem byAuthor_fold_eq (w : Work) (authors : List (String × AuthorMeta)) :
    ∀ (qs : List String) (ba : List (String × List Work)),
    qs.Nodup → (∀ q ∈ qs, ba.any (fun e => e.1 = q) = false) →
    qs.foldl (fun ba qid =>
      if ba.any (fun e => e.1 = qid) then
        ba.map (fun e => if e.1 = qid then (e.1, e.2 ++ [workCopyFor w qid authors]) else e)
      else ba ++ [(qid, [workCopyFor w qid authors])]) ba =
    ba ++ qs.map (fun qid => (qid, [workCopyFor w qid authors])) := by
  intro qs
  induction qs with
  | nil => intro ba _ _; simp
  | cons q qs ih =>
    intro ba hnd habs
    rw [List.nodup_cons] at hnd
    rw [List.foldl_cons]
    rw [if_neg (by rw [habs q (List.mem_cons_self _ _)]; simp)]
    rw [ih (ba ++ [(q, [workCopyFor w q authors])]) hnd.2 ?_]
    · simp
    · intro q' hq'
      rw [List.any_append]
      have h1 := habs q' (List.mem_cons_of_mem _ hq')
      have h2 : ((([(q, [workCopyFor w q authors])] : List (String × List Work))).any
          (fun e => e.1 = q')) = false := by
        simp only [List.any_cons, List.any_nil]
        have : ¬ q = q' := fun he => hnd.1 (he ▸ hq')
        simp [this]
      rw [h1, h2]
      rfl

/-- C4: a Work with a corporate author and listed individual authors is
aggregated onto exactly one corporate page (keyed by the slug resolved
from the cached profile of the corporate QID) and exactly one individual
page per listed author id, each individual copy carrying a coMembers list
naming every other listed author and not the author themself. -/
theorem buildAuthorPages_corporate
    (w : Work) (ca : CorpAuthor) (q : String) (m : AuthorMeta) (qs : List String)
    (authors : List (String × AuthorMeta)) (trads : List (String × String))
    (hca : w.corporateAuthor = some ca) (hqid : ca.qid = some q) (hq : q ≠ "")
    (hslug : ca.slug = none) (hm : jsObjGet authors q = some m)
    (hqs : w.authors = qs) (hnd : qs.Nodup) :
    (buildAuthorPages [w] authors trads).length = qs.length + 1 ∧
    (buildAuthorPages [w] authors trads).countP (fun p => p.isCorporate) = 1 ∧
    (∃ p ∈ buildAuthorPages [w] authors trads, p.isCorporate = true ∧
      p.slug = m.slug ∧ p.name = ca.label ∧ p.works.map Work.id = [w.id]) ∧
    (∀ qid ∈ qs,
      (buildAuthorPages [w] authors trads).countP
        (fun p => !p.isCorporate && p.qid == qid) = 1 ∧
      ∃ p ∈ buildAuthorPages [w] authors trads, p.isCorporate = false ∧ p.qid = qid ∧
        p.works.map Work.id = [w.id] ∧
        p.works.map Work.coMembers =
          [some ((qs.filter (fun q2 => q2 ≠ qid)).map (fun q2 =>
            { qid := q2, name := (getAuthorMeta q2 authors).name,
              slug := (getAuthorMeta q2 authors).slug }))]) := by
  have hres : resolveCorp w authors =
      { w with corporateAuthor := some { ca with slug := some m.slug } } := by
    simp only [resolveCorp, hca]
    rw [if_pos ⟨by rw [hqid]; simpa [optStrTruthy] using hq,
      by rw [hslug]; simp [optStrTruthy]⟩]
    rw [hqid]
    simp only [Option.getD_some, hm]
  have hfold : [w].foldl (buildAuthorPagesStep authors) ([], []) =
      (qs.map (fun qid => (qid,
        [workCopyFor { w with corporateAuthor := some { ca with slug := some m.slug } }
          qid authors])),
       [(m.slug,
         { label := ca.label
           slug := m.slug
           qid := some q
           meta := some m
           memberQids := qs.foldl setAdd []
           works := [{ w with corporateAuthor := some { ca with slug := some m.slug } }] })]) := by
    rw [List.foldl_cons, List.foldl_nil]
    simp only [buildAuthorPagesStep, hres]
    simp only [hqs, hqid, Option.getD_some, hm]
    rw [byAuthor_fold_eq _ _ qs [] hnd (by intro q' _; rfl)]
    simp [List.any_nil, setAdd]
  have hpages : buildAuthorPages [w] authors trads =
      jsSortByKey (fun p => yearKeyB p.birthYear)
        (qs.map (fun qid => mkIndividualPage qid
            [workCopyFor { w with corporateAuthor := some { ca with slug := some m.slug } }
              qid authors] authors trads)
          ++ [mkCorporatePage
            { label := ca.label
              slug := m.slug
              qid := some q
              meta := some m
              memberQids := qs.foldl setAdd []
              works := [{ w with corporateAuthor := some { ca with slug := some m.slug } }] }
            authors trads]) := by
    simp only [buildAuthorPages, hfold]
    rw [List.map_map]
    rfl
  have hperm : List.Perm (buildAuthorPages [w] authors trads)
      (qs.map (fun qid => mkIndividualPage qid
          [workCopyFor { w with corporateAuthor := some { ca with slug := some m.slug } }
            qid authors] authors trads)
        ++ [mkCorporatePage
          { label := ca.label
            slug := m.slug
            qid := some q
            meta := some m
            memberQids := qs.foldl setAdd []
            works := [{ w with corporateAuthor := some { ca with slug := some m.slug } }] }
          authors trads]) := by
    rw [hpages]
    exact jsSortByKey_perm _ _
  refine ⟨?_, ?_, ?_, ?_⟩
  · rw [hperm.length_eq]
    simp
  · rw [hperm.countP_eq]
    rw [List.countP_append]
    have h1 : (qs.map (fun qid => mkIndividualPage qid
        [workCopyFor { w with corporateAuthor := some { ca with slug := some m.slug } }
          qid authors] authors trads)).countP (fun p => p.isCorporate) = 0 := by
      rw [List.countP_eq_zero]
      intro x hx
      rw [List.mem_map] at hx
      obtain ⟨qid, _, rfl⟩ := hx
      simp [mkIndividualPage]
    rw [h1]
    simp [mkCorporatePage]
  · refine ⟨mkCorporatePage
      { label := ca.label
        slug := m.slug
        qid := some q
        meta := some m
        memberQids := qs.foldl setAdd []
        works := [{ w with corporateAuthor := some { ca with slug := some m.slug } }] }
      authors trads, ?_, ?_, ?_, ?_, ?_⟩
    · apply hperm.mem_iff.mpr
      exact List.mem_append_right _ (List.mem_cons_self _ _)
    · simp [mkCorporatePage]
    · simp [mkCorporatePage]
    · simp [mkCorporatePage]
    · simp [mkCorporatePage, jsSortByKey_singleton]
  · intro qid hqid'
    constructor
    · rw [hperm.countP_eq]
      rw [List.countP_append]
      have h1 : (qs.map (fun qid' => mkIndividualPage qid'
          [workCopyFor { w with corporateAuthor := some { ca with slug := some m.slug } }
            qid' authors] authors trads)).countP (fun p => !p.isCorporate && p.qid == qid) =
          qs.countP (fun q' => q' == qid) := by
        rw [List.countP_map]
        apply List.countP_congr
        intro q' _
        simp [mkIndividualPage, Function.comp]
      rw [h1, countP_eq_one_of_nodup_mem hnd hqid']
      simp [mkCorporatePage]
    · refine ⟨mkIndividualPage qid
        [workCopyFor { w with corporateAuthor := some { ca with slug := some m.slug } }
          qid authors] authors trads, ?_, ?_, ?_, ?_, ?_⟩
      · apply hperm.mem_iff.mpr
        apply List.mem_append_left
        exact List.mem_map_of_mem _ hqid'
      · simp [mkIndividualPage]
      · simp [mkIndividualPage]
      · simp [mkIndividualPage, jsSortByKey_singleton, workCopyFor]
      · simp only [mkIndividualPage, jsSortByKey_singleton]
        simp [workCopyFor, hqs]

/-- The Synod of Dort scenario: a corporate-authored work by Q1 and Q2,
with the corporate profile cached under Q123. -/
def dortWork : Work :=
  { id := "dort-canons", author := "Q1", authors := ["Q1", "Q2"],
    corporateAuthor := some { label := "Synod of Dort", slug := none, qid := some "Q123" },
    category := .nullV, dateAdded := none, workLoci := [], allLoci := [], year := some 1619,
    origTitle := .nullV, origLang := none, origUrl := .nullV, oclc := none, origEditions := [],
    title := .str "Canons of Dort", sections := [], flatSections := [], translations := [],
    sectionTexts := [], yamlFilename := "dort-canons.yaml", coMembers := none }

def dortMeta : AuthorMeta :=
  { qid := "Q123", name := "Synod of Dort", slug := "synod-of-dort", birthYear := none,
    deathYear := none, imageUrl := none, wikipediaUrl := none, prdlId := none,
    openLibraryId := none, labels := [] }

def dortAuthors : List (String × AuthorMeta) := [("Q123", dortMeta)]

theorem buildAuthorPages_corporate_witness :
    (buildAuthorPages [dortWork] dortAuthors []).length = 3 ∧
    (buildAuthorPages [dortWork] dortAuthors []).countP (fun p => p.isCorporate) = 1 ∧
    (∃ p ∈ buildAuthorPages [dortWork] dortAuthors [], p.isCorporate = true ∧
      p.slug = "synod-of-dort" ∧ p.name = "Synod of Dort" ∧
      p.works.map Work.id = ["dort-canons"]) ∧
    (∀ qid ∈ ["Q1", "Q2"],
      (buildAuthorPages [dortWork] dortAuthors []).countP
        (fun p => !p.isCorporate && p.qid == qid) = 1 ∧
      ∃ p ∈ buildAuthorPages [dortWork] dortAuthors [], p.isCorporate = false ∧ p.qid = qid ∧
        p.works.map Work.id = ["dort-canons"] ∧
        p.works.map Work.coMembers =
          [some ((["Q1", "Q2"].filter (fun q2 => q2 ≠ qid)).map (fun q2 =>
            { qid := q2, name := (getAuthorMeta q2 dortAuthors).name,
              slug := (getAuthorMeta q2 dortAuthors).slug }))]) :=
  buildAuthorPages_corporate dortWork
    { label := "Synod of Dort", slug := none, qid := some "Q123" }
    "Q123" dortMeta ["Q1", "Q2"] dortAuthors []
    rfl rfl (by decide) rfl rfl rfl (by decide)

-- --- Recency feed (whatsNew) ---

/-- One flattened (translator, site) row of a feed entry. -/
structure NewTranslationRow where
  translator : String
  translatorInfo : JsVal
  siteName : String
  url : JsVal
  volumes : JsVal

/-- One entry of the recency feed. -/
structure WhatsNewRow where
  id : String
  title : JsVal
  year : Option Int
  dateAdded : Option String
  authorName : String
  authorSlug : String
  translations : List NewTranslationRow

/-- The per-work entry of the feed: author resolution (corporate label
first, else the author page, else the raw id) and the translations×sites
flattening. Corporate slugs have been resolved by the author aggregation
by the time the feed runs. -/
def whatsNewRow (authorByQid : List (String × AuthorPage)) (w : Work) : WhatsNewRow :=
  let an :=
    match w.corporateAuthor with
    | some ca => (ca.label, ca.slug.getD "")
    | none =>
      match jsObjGet authorByQid w.author with
      | some ap => (ap.name, ap.slug)
      | none => (w.author, slugify w.author)
  { id := w.id, title := w.title, year := w.year, dateAdded := w.dateAdded,
    authorName := an.1, authorSlug := an.2,
    translations := w.translations.flatMap (fun t => t.sites.map (fun s =>
      { translator := t.translator, translatorInfo := t.translatorInfo,
        siteName := s.siteName, url := s.url, volumes := s.volumes })) }

/-- The source comparator (b.dateAdded > a.dateAdded ? 1 : b < a ? -1 : 0);
the dates of filtered works are strings, compared lexicographically. -/
def whatsNewCmp (a b : Work) : Int :=
  if (a.dateAdded.getD "") < (b.dateAdded.getD "") then 1
  else if (b.dateAdded.getD "") < (a.dateAdded.getD "") then -1 else 0

/-- whatsNew: filter works with a truthy dateAdded, stable-sort by the
comparator, keep the first 100, map to feed entries. -/
def whatsNew (works : List Work) (authorByQid : List (String × AuthorPage)) :
    List WhatsNewRow :=
  ((insertionSortBy (fun a b => decide (whatsNewCmp a b ≤ 0))
      (works.filter (fun w => optStrTruthy w.dateAdded))).take 100).map
    (whatsNewRow authorByQid)

/-- Modelled from the spec: the recency feed holds exactly the works with
a non-null dateAdded, stably sorted descending by that date (ties in input
order), truncated to the 100 most recent, one feed entry per work. -/
def recencyFeedSpec (works : List Work) (authorByQid : List (String × AuthorPage)) :
    List WhatsNewRow :=
  ((insertionSortBy (fun a b => decide ((b.dateAdded.getD "") ≤ (a.dateAdded.getD "")))
      (works.filter (fun w => optStrTruthy w.dateAdded))).take 100).map
    (whatsNewRow authorByQid)

/-- C8: the feed equals the spec-side description; it holds at most 100
entries; its dates are descending; works sharing a date stay in corpus
order through the sort; and each entry flattens translations×sites into
one row per (translator, site) pair. -/
theorem whatsNew_spec (works : List Work) (authorByQid : List (String × AuthorPage)) :
    whatsNew works authorByQid = recencyFeedSpec works authorByQid ∧
    (whatsNew works authorByQid).length ≤ 100 ∧
    List.Pairwise (fun x y => y ≤ x)
      ((whatsNew works authorByQid).map (fun r => r.dateAdded.getD "")) ∧
    (∀ d : String,
      ((insertionSortBy (fun a b => decide (whatsNewCmp a b ≤ 0))
          (works.filter (fun w => optStrTruthy w.dateAdded))).filter
        (fun w => w.dateAdded.getD "" == d)) =
      ((works.filter (fun w => optStrTruthy w.dateAdded)).filter
        (fun w => w.dateAdded.getD "" == d))) ∧
    (∀ w : Work, (whatsNewRow authorByQid w).translations =
      w.translations.flatMap (fun t => t.sites.map (fun s =>
        { translator := t.translator, translatorInfo := t.translatorInfo,
          siteName := s.siteName, url := s.url, volumes := s.volumes }))) := by
  have hrel : (fun a b : Work => decide (whatsNewCmp a b ≤ 0)) =
      (fun a b : Work => decide ((b.dateAdded.getD "") ≤ (a.dateAdded.getD ""))) := by
    funext a b
    by_cases h1 : (a.dateAdded.getD "") < (b.dateAdded.getD "")
    · have h2 : ¬ ((b.dateAdded.getD "") ≤ (a.dateAdded.getD "")) := not_le.mpr h1
      simp [whatsNewCmp, h1, h2]
    · by_cases h3 : (b.dateAdded.getD "") < (a.dateAdded.getD "")
      · have h2 : (b.dateAdded.getD "") ≤ (a.dateAdded.getD "") := le_of_lt h3
        simp [whatsNewCmp, h1, h3, h2]
      · have h2 : (b.dateAdded.getD "") ≤ (a.dateAdded.getD "") := not_lt.mp h1
        simp [whatsNewCmp, h1, h3, h2]
  have hle_iff : ∀ a b : Work, decide (whatsNewCmp a b ≤ 0) = true ↔
      (b.dateAdded.getD "") ≤ (a.dateAdded.getD "") := by
    intro a b
    have hc := congrFun (congrFun hrel a) b
    rw [hc]
    simp
  have htrans : ∀ a b c : Work,
      decide (whatsNewCmp a b ≤ 0) = true →
      decide (whatsNewCmp b c ≤ 0) = true →
      decide (whatsNewCmp a c ≤ 0) = true := by
    intro a b c hab hbc
    rw [hle_iff] at *
    exact le_trans hbc hab
  have htot : ∀ a b : Work,
      decide (whatsNewCmp a b ≤ 0) = true ∨ decide (whatsNewCmp b a ≤ 0) = true := by
    intro a b
    rw [hle_iff, hle_iff]
    exact le_total _ _
  refine ⟨?_, ?_, ?_, ?_, fun w => rfl⟩
  · rw [whatsNew, recencyFeedSpec, hrel]
  · rw [whatsNew]
    rw [List.length_map]
    exact le_trans (Nat.le_of_eq (List.length_take _ _)) (min_le_left _ _)
  · rw [whatsNew, List.map_map]
    have hpw := insertionSortBy_pairwise (fun a b : Work => decide (whatsNewCmp a b ≤ 0))
      htrans htot (works.filter (fun w => optStrTruthy w.dateAdded))
    have hpw2 := hpw.sublist (List.take_sublist 100 _)
    rw [List.pairwise_map]
    refine hpw2.imp ?_
    intro a b hab
    exact (hle_iff a b).mp hab
  · intro d
    apply insertionSortBy_filter_stable
    intro a b hpa hpb
    apply (hle_iff a b).mpr
    simp only [beq_iff_eq] at hpa hpb
    rw [hpa, hpb]
